import Mathlib

/-!
Verification of the M/M/m/K queue simulation (`QueueSim.py`).

The development shallowly embeds the simulation: machine floats are modelled
as exact rationals `ℚ`, numpy arrays as Lean `List`s, and Python's `heapq`
module (the pure-Python reference implementation, whose comparison behaviour
the C accelerator matches) is translated function by function.  Fallible
library calls (`np.hstack` on an empty list, indexing an empty array) are
modelled with `Option`, `none` standing for a raised exception.
-/

set_option linter.unusedVariables false

namespace QueueSim

/-! ### List access helpers

`np`-style access: `getD` with default, `set`, and small lemmas relating them.
-/

theorem getD_set_self {α : Type} (l : List α) (i : ℕ) (x d : α) (h : i < l.length) :
    (l.set i x).getD i d = x := by
  induction l generalizing i with
  | nil => simp at h
  | cons a t ih =>
    cases i with
    | zero => simp [List.set, List.getD]
    | succ n =>
      simp only [List.set, List.getD] at *
      exact ih n (by simpa using h)

theorem getD_set_ne {α : Type} (l : List α) (i j : ℕ) (x d : α) (h : i ≠ j) :
    (l.set i x).getD j d = l.getD j d := by
  induction l generalizing i j with
  | nil => simp [List.set]
  | cons a t ih =>
    cases i with
    | zero =>
      cases j with
      | zero => exact absurd rfl h
      | succ m => simp [List.set, List.getD]
    | succ n =>
      cases j with
      | zero => simp [List.set, List.getD]
      | succ m =>
        simp only [List.set, List.getD]
        exact ih n m (fun hnm => h (by rw [hnm]))

theorem getD_append_left {α : Type} (l l' : List α) (i : ℕ) (d : α) (h : i < l.length) :
    (l ++ l').getD i d = l.getD i d := by
  induction l generalizing i with
  | nil => simp at h
  | cons a t ih =>
    cases i with
    | zero => simp [List.getD]
    | succ n =>
      simp only [List.cons_append, List.getD]
      exact ih n (by simpa using h)

theorem getD_append_right {α : Type} (l : List α) (x d : α) :
    (l ++ [x]).getD l.length d = x := by
  induction l with
  | nil => simp [List.getD]
  | cons a t ih => simp [List.getD]

theorem getD_take {α : Type} (l : List α) (n i : ℕ) (d : α) (h : i < n) :
    (l.take n).getD i d = l.getD i d := by
  induction l generalizing n i with
  | nil => simp
  | cons a t ih =>
    cases n with
    | zero => simp at h
    | succ m =>
      cases i with
      | zero => simp [List.getD]
      | succ k =>
        simp only [List.take, List.getD]
        exact ih m k (by omega)

theorem mem_of_mem_set {α : Type} (l : List α) (i : ℕ) (x y : α)
    (h : y ∈ l.set i x) : y ∈ l ∨ (y = x ∧ i < l.length) := by
  induction l generalizing i with
  | nil => simp [List.set] at h
  | cons a t ih =>
    cases i with
    | zero =>
      rcases List.mem_cons.mp h with h | h
      · exact Or.inr ⟨h, by simp⟩
      · exact Or.inl (List.mem_cons_of_mem _ h)
    | succ n =>
      rcases List.mem_cons.mp h with h | h
      · exact Or.inl (h ▸ List.mem_cons_self _ _)
      · rcases ih n h with h' | h'
        · exact Or.inl (List.mem_cons_of_mem _ h')
        · exact Or.inr ⟨h'.1, by simpa using Nat.succ_lt_succ h'.2⟩

theorem getD_mem {α : Type} (l : List α) (i : ℕ) (d : α) (h : i < l.length) :
    l.getD i d ∈ l := by
  induction l generalizing i with
  | nil => simp at h
  | cons a t ih =>
    cases i with
    | zero => simp [List.getD]
    | succ n =>
      simp only [List.getD]
      exact List.mem_cons_of_mem _ (ih n (by simpa using h))

theorem getD_eq_get {α : Type} (l : List α) (i : ℕ) (d : α) (h : i < l.length) :
    l.getD i d = l.get ⟨i, h⟩ := by
  induction l generalizing i with
  | nil => simp at h
  | cons a t ih =>
    cases i with
    | zero => simp [List.getD]
    | succ n => simpa [List.getD] using ih n (by simpa using h)

/-! ### Events and the `heapq` model

`Event` carries the event time and the index of the associated customer,
exactly the two attributes of the Python `Event` class.  `Event.__lt__`
compares times only; ties are therefore resolved by the internal mechanics of
`heapq`, which we reproduce verbatim (`_siftdown` / `_siftup` from the CPython
`heapq` module, specialised to `startpos = 0`, the only value the simulation
ever uses).  The loops are written with an explicit structural counter
(`fuel`); the callers always supply enough fuel for the counter to be
unreachable, so the functions compute exactly what the unbounded loops do.
-/

structure Event where
  t : ℚ
  customer_idx : ℕ
deriving DecidableEq

/-- Read slot `i` of a heap, with a dummy default (all uses are in bounds). -/
def Epull (l : List Event) (i : ℕ) : Event := l.getD i ⟨0, 0⟩

/-- CPython `heapq._siftdown(heap, 0, pos)` with `newitem` the value being
placed: walk from `pos` toward the root, moving each parent that is larger
than `newitem` down, and finally store `newitem` at the resting position. -/
def siftdownGo (newitem : Event) : ℕ → List Event → ℕ → List Event
  | 0, heap, pos => heap.set pos newitem
  | fuel + 1, heap, pos =>
    if 0 < pos then
      if newitem.t < (Epull heap ((pos - 1) / 2)).t then
        siftdownGo newitem fuel (heap.set pos (Epull heap ((pos - 1) / 2))) ((pos - 1) / 2)
      else heap.set pos newitem
    else heap.set pos newitem

/-- CPython `heapq.heappush`: append then sift down from the new last slot. -/
def heappush (heap : List Event) (item : Event) : List Event :=
  siftdownGo item heap.length (heap ++ [item]) heap.length

/-- The child-promotion loop of CPython `heapq._siftup`: starting from the
hole at `pos`, repeatedly move the preferred child (the right child whenever
the left one is not strictly smaller) into the hole; returns the final heap
and the resting position of the hole. -/
def siftupGo (endpos : ℕ) : ℕ → List Event → ℕ → List Event × ℕ
  | 0, heap, pos => (heap, pos)
  | fuel + 1, heap, pos =>
    if 2 * pos + 1 < endpos then
      if 2 * pos + 2 < endpos ∧ ¬ (Epull heap (2 * pos + 1)).t < (Epull heap (2 * pos + 2)).t then
        siftupGo endpos fuel (heap.set pos (Epull heap (2 * pos + 2))) (2 * pos + 2)
      else
        siftupGo endpos fuel (heap.set pos (Epull heap (2 * pos + 1))) (2 * pos + 1)
    else (heap, pos)

/-- CPython `heapq.heappop`: detach the last element, return the root, move
the last element into the root slot and restore the heap with `_siftup`
(child promotion followed by `_siftdown` of the moved element). -/
def heappop (heap : List Event) : Event × List Event :=
  let n := heap.length
  let lastelt := Epull heap (n - 1)
  let rest := heap.take (n - 1)
  if rest.isEmpty then (lastelt, [])
  else
    let h := rest.set 0 lastelt
    let p := siftupGo h.length h.length h 0
    (Epull rest 0, siftdownGo lastelt p.2 p.1 p.2)

/-- The binary-heap ordering invariant of a `heapq` list: every non-root slot
is at least its parent (comparison is on event times only, as in
`Event.__lt__`). -/
def heapInv (l : List Event) : Prop :=
  ∀ j, 0 < j → j < l.length → (Epull l ((j - 1) / 2)).t ≤ (Epull l j).t

theorem parent_lt {pos : ℕ} (h : 0 < pos) : (pos - 1) / 2 < pos :=
  Nat.lt_of_le_of_lt (Nat.div_le_self _ 2) (Nat.sub_lt h Nat.one_pos)

theorem lt_childL (i : ℕ) : i < 2 * i + 1 := by omega

theorem lt_childR (i : ℕ) : i < 2 * i + 2 := by omega

theorem parent_childL (i : ℕ) : (2 * i + 1 - 1) / 2 = i := by omega

theorem parent_childR (i : ℕ) : (2 * i + 2 - 1) / 2 = i := by omega

theorem child_cases {i j : ℕ} (h : (j - 1) / 2 = i) (hj : 0 < j) :
    j = 2 * i + 1 ∨ j = 2 * i + 2 := by omega

/-- In a heap satisfying the ordering invariant, the root time bounds every
slot's time from below. -/
theorem heapInv_root_le (l : List Event) (hinv : heapInv l) :
    ∀ j, j < l.length → (Epull l 0).t ≤ (Epull l j).t := by
  intro j
  induction j using Nat.strong_induction_on with
  | _ j ih =>
    intro hj
    rcases Nat.eq_zero_or_pos j with rfl | hpos
    · exact le_refl _
    · exact le_trans (ih ((j - 1) / 2) (parent_lt hpos)
        (lt_trans (parent_lt hpos) hj)) (hinv j hpos hj)

/-- Root bound in terms of membership. -/
theorem heapInv_root_le_mem (l : List Event) (hinv : heapInv l) (x : Event)
    (hx : x ∈ l) : (Epull l 0).t ≤ x.t := by
  rcases List.mem_iff_get.mp hx with ⟨i, hi⟩
  have h0 := heapInv_root_le l hinv i.1 i.isLt
  have h1 : Epull l i.1 = x := by
    rw [Epull, getD_eq_get l i.1 _ i.isLt]
    exact hi
  rwa [h1] at h0

theorem length_siftdownGo (newitem : Event) (fuel : ℕ) :
    ∀ heap pos, (siftdownGo newitem fuel heap pos).length = heap.length := by
  induction fuel with
  | zero => intro heap pos; simp [siftdownGo]
  | succ n ih =>
    intro heap pos
    simp only [siftdownGo]
    split
    · split
      · rw [ih]; simp
      · simp
    · simp

theorem length_heappush (heap : List Event) (item : Event) :
    (heappush heap item).length = heap.length + 1 := by
  simp [heappush, length_siftdownGo]

theorem length_siftupGo (endpos fuel : ℕ) :
    ∀ heap pos, (siftupGo endpos fuel heap pos).1.length = heap.length := by
  induction fuel with
  | zero => intro heap pos; simp [siftupGo]
  | succ n ih =>
    intro heap pos
    simp only [siftupGo]
    split
    · split
      · rw [ih]; simp
      · rw [ih]; simp
    · simp

theorem length_heappop (heap : List Event) (h : heap ≠ []) :
    (heappop heap).2.length = heap.length - 1 := by
  have hlen : 0 < heap.length := List.length_pos.mpr h
  simp only [heappop]
  split
  · rename_i hemp
    have : heap.length - 1 = 0 := by
      have := List.isEmpty_iff.mp hemp
      have hl := congrArg List.length this
      simpa using hl
    simp [this]
  · rw [length_siftdownGo, length_siftupGo]
    simp [List.length_take]

theorem mem_siftdownGo (newitem : Event) (fuel : ℕ) :
    ∀ heap pos x, x ∈ siftdownGo newitem fuel heap pos →
      x ∈ heap ∨ x = newitem := by
  induction fuel with
  | zero =>
    intro heap pos x hx
    rcases mem_of_mem_set _ _ _ _ hx with h | h
    · exact Or.inl h
    · exact Or.inr h.1
  | succ n ih =>
    intro heap pos x hx
    simp only [siftdownGo] at hx
    split at hx
    · rename_i hpos
      split at hx
      · rcases ih _ _ _ hx with h | h
        · rcases mem_of_mem_set _ _ _ _ h with h' | h'
          · exact Or.inl h'
          · left
            rw [h'.1]
            exact getD_mem _ _ _ (lt_trans (parent_lt hpos) h'.2)
        · exact Or.inr h
      · rcases mem_of_mem_set _ _ _ _ hx with h | h
        · exact Or.inl h
        · exact Or.inr h.1
    · rcases mem_of_mem_set _ _ _ _ hx with h | h
      · exact Or.inl h
      · exact Or.inr h.1

theorem mem_heappush (heap : List Event) (item x : Event)
    (hx : x ∈ heappush heap item) : x ∈ heap ∨ x = item := by
  rcases mem_siftdownGo _ _ _ _ _ hx with h | h
  · rcases List.mem_append.mp h with h' | h'
    · exact Or.inl h'
    · exact Or.inr (by simpa using h')
  · exact Or.inr h

theorem mem_siftupGo (endpos fuel : ℕ) :
    ∀ heap pos x, endpos ≤ heap.length →
      x ∈ (siftupGo endpos fuel heap pos).1 → x ∈ heap := by
  induction fuel with
  | zero => intro heap pos x hend hx; exact hx
  | succ n ih =>
    intro heap pos x hend hx
    simp only [siftupGo] at hx
    split at hx
    · rename_i hchild
      split at hx
      · rename_i hright
        rcases mem_of_mem_set _ _ _ _ (ih _ _ _ (by simpa using hend) hx) with h | h
        · exact h
        · rw [h.1]
          exact getD_mem _ _ _ (lt_of_lt_of_le hright.1 hend)
      · rcases mem_of_mem_set _ _ _ _ (ih _ _ _ (by simpa using hend) hx) with h | h
        · exact h
        · rw [h.1]
          exact getD_mem _ _ _ (lt_of_lt_of_le hchild hend)
    · exact hx

theorem mem_heappop (heap : List Event) (x : Event)
    (hx : x ∈ (heappop heap).2) : x ∈ heap := by
  simp only [heappop] at hx
  split at hx
  · simp at hx
  · rename_i hemp
    have hne : heap.take (heap.length - 1) ≠ [] := by
      intro hc; rw [hc] at hemp; simp at hemp
    have hlen : 0 < heap.length := by
      rcases heap with _ | _
      · simp at hne
      · simp
    rcases mem_siftdownGo _ _ _ _ _ hx with h | h
    · rcases mem_of_mem_set _ _ _ _ (mem_siftupGo _ _ _ _ _ (le_refl _) h) with h' | h'
      · exact List.mem_of_mem_take h'
      · rw [h'.1]
        exact getD_mem _ _ _ (by omega)
    · rw [h]
      exact getD_mem _ _ _ (by omega)

theorem Epull_set_self (l : List Event) (i : ℕ) (x : Event) (h : i < l.length) :
    Epull (l.set i x) i = x :=
  getD_set_self l i x _ h

theorem Epull_set_ne (l : List Event) (i j : ℕ) (x : Event) (h : i ≠ j) :
    Epull (l.set i x) j = Epull l j :=
  getD_set_ne l i j x _ h

/-- Establishing the heap invariant for `heap.set pos v` from facts about the
slots around `pos`. -/
theorem heapInv_set (heap : List Event) (pos : ℕ) (v : Event) (hpos : pos < heap.length)
    (hparent : 0 < pos → (Epull heap ((pos - 1) / 2)).t ≤ v.t)
    (hchild : ∀ j, 0 < j → j < heap.length → (j - 1) / 2 = pos → v.t ≤ (Epull heap j).t)
    (hother : ∀ j, 0 < j → j < heap.length → j ≠ pos → (j - 1) / 2 ≠ pos →
      (Epull heap ((j - 1) / 2)).t ≤ (Epull heap j).t) :
    heapInv (heap.set pos v) := by
  intro j hj hjlen
  rw [List.length_set] at hjlen
  rcases eq_or_ne j pos with rfl | hne
  · rw [Epull_set_self _ _ _ hpos, Epull_set_ne _ _ _ _ (Nat.ne_of_gt (parent_lt hj))]
    exact hparent hj
  · rw [Epull_set_ne _ _ _ _ (Ne.symm hne)]
    rcases eq_or_ne ((j - 1) / 2) pos with hp | hp
    · rw [hp, Epull_set_self _ _ _ hpos]
      exact hchild j hj hjlen hp
    · rw [Epull_set_ne _ _ _ _ (fun hc => hp hc.symm)]
      exact hother j hj hjlen hne hp

/-- Correctness of the `_siftdown` bubble-up loop: if the heap invariant holds
everywhere except at the hole `pos`, the hole's children dominate both
`newitem` and the hole's parent, then the loop restores the full invariant. -/
theorem siftdownGo_inv (newitem : Event) (fuel : ℕ) :
    ∀ heap pos, pos ≤ fuel → pos < heap.length →
      (∀ j, 0 < j → j < heap.length → j ≠ pos →
        (Epull heap ((j - 1) / 2)).t ≤ (Epull heap j).t) →
      (∀ j, 0 < j → j < heap.length → (j - 1) / 2 = pos →
        newitem.t ≤ (Epull heap j).t) →
      (0 < pos → ∀ j, 0 < j → j < heap.length → (j - 1) / 2 = pos →
        (Epull heap ((pos - 1) / 2)).t ≤ (Epull heap j).t) →
      heapInv (siftdownGo newitem fuel heap pos) := by
  induction fuel with
  | zero =>
    intro heap pos hfuel hpos ha hb hd
    have hp0 : pos = 0 := Nat.le_zero.mp hfuel
    subst hp0
    simp only [siftdownGo]
    refine heapInv_set heap 0 newitem hpos (fun h => absurd h (by omega)) hb ?_
    intro j hj hjlen hne hp
    exact ha j hj hjlen hne
  | succ n ih =>
    intro heap pos hfuel hpos ha hb hd
    simp only [siftdownGo]
    split
    · rename_i hpz
      split
      · rename_i hlt
        have hplt : (pos - 1) / 2 < pos := parent_lt hpz
        refine ih _ _ (by omega) (by rw [List.length_set]; omega) ?_ ?_ ?_
        · -- invariant except at the new hole (the parent position)
          intro j hj hjlen hne
          rw [List.length_set] at hjlen
          rcases eq_or_ne j pos with rfl | hjp
          · rw [Epull_set_self _ _ _ hpos,
              Epull_set_ne _ _ _ _ (Nat.ne_of_gt hplt)]
          · rw [Epull_set_ne _ _ _ _ (Ne.symm hjp)]
            rcases eq_or_ne ((j - 1) / 2) pos with hp | hp
            · rw [hp, Epull_set_self _ _ _ hpos]
              exact hd hpz j hj hjlen hp
            · rw [Epull_set_ne _ _ _ _ (fun hc => hp hc.symm)]
              exact ha j hj hjlen hjp
        · -- children of the new hole dominate newitem
          intro j hj hjlen hp
          rw [List.length_set] at hjlen
          rcases eq_or_ne j pos with rfl | hjp
          · rw [Epull_set_self _ _ _ hpos]
            exact le_of_lt (by assumption)
          · rw [Epull_set_ne _ _ _ _ (Ne.symm hjp)]
            refine le_trans (le_of_lt (by assumption)) ?_
            have := ha j hj hjlen hjp
            rwa [hp] at this
        · -- children of the new hole dominate its parent
          intro hpp j hj hjlen hp
          rw [List.length_set] at hjlen
          have hgp : ((pos - 1) / 2 - 1) / 2 ≠ pos := by
            have := parent_lt hpp
            omega
          rw [Epull_set_ne _ _ _ _ (fun hc => hgp hc.symm)]
          have hparent_edge : (Epull heap (((pos - 1) / 2 - 1) / 2)).t ≤
              (Epull heap ((pos - 1) / 2)).t :=
            ha _ hpp (by omega) (by omega)
          rcases eq_or_ne j pos with rfl | hjp
          · rw [Epull_set_self _ _ _ hpos]
            exact hparent_edge
          · rw [Epull_set_ne _ _ _ _ (Ne.symm hjp)]
            refine le_trans hparent_edge ?_
            have := ha j hj hjlen hjp
            rwa [hp] at this
      · rename_i hge
        refine heapInv_set heap pos newitem hpos (fun _ => le_of_not_lt hge) hb ?_
        intro j hj hjlen hne hp
        exact ha j hj hjlen hne
    · rename_i hpz
      have hp0 : pos = 0 := by omega
      subst hp0
      refine heapInv_set heap 0 newitem hpos (fun h => absurd h (by omega)) hb ?_
      intro j hj hjlen hne hp
      exact ha j hj hjlen hne

/-- `heappush` preserves the heap invariant. -/
theorem heapInv_heappush (heap : List Event) (item : Event) (hinv : heapInv heap) :
    heapInv (heappush heap item) := by
  refine siftdownGo_inv item heap.length (heap ++ [item]) heap.length (le_refl _)
    (by simp) ?_ ?_ ?_
  · intro j hj hjlen hne
    rw [List.length_append, List.length_singleton] at hjlen
    have hjlt : j < heap.length := by omega
    have hplt : (j - 1) / 2 < heap.length := lt_of_le_of_lt (by omega) hjlt
    rw [Epull, Epull, getD_append_left _ _ _ _ hjlt, getD_append_left _ _ _ _ hplt]
    exact hinv j hj hjlt
  · intro j hj hjlen hp
    rw [List.length_append, List.length_singleton] at hjlen
    omega
  · intro hpp j hj hjlen hp
    rw [List.length_append, List.length_singleton] at hjlen
    omega

/-- Correctness of the `_siftup` child-promotion loop: the ordering invariant
holds on edges not leaving the hole, and the hole's children dominate the
hole's parent; the loop preserves this, ends with the hole at a position
without children, and keeps the invariant on all edges not leaving the final
hole. -/
theorem siftupGo_spec (endpos fuel : ℕ) :
    ∀ heap pos, heap.length = endpos → pos < endpos → endpos ≤ fuel + pos →
      (∀ j, 0 < j → j < endpos → (j - 1) / 2 ≠ pos →
        (Epull heap ((j - 1) / 2)).t ≤ (Epull heap j).t) →
      (0 < pos → ∀ j, 0 < j → j < endpos → (j - 1) / 2 = pos →
        (Epull heap ((pos - 1) / 2)).t ≤ (Epull heap j).t) →
      (siftupGo endpos fuel heap pos).1.length = endpos ∧
      (siftupGo endpos fuel heap pos).2 < endpos ∧
      ¬ (2 * (siftupGo endpos fuel heap pos).2 + 1 < endpos) ∧
      (∀ j, 0 < j → j < endpos → (j - 1) / 2 ≠ (siftupGo endpos fuel heap pos).2 →
        (Epull (siftupGo endpos fuel heap pos).1 ((j - 1) / 2)).t ≤
          (Epull (siftupGo endpos fuel heap pos).1 j).t) := by
  induction fuel with
  | zero =>
    intro heap pos hlen hpos hfuel hQ hE
    have : ¬ (2 * pos + 1 < endpos) := by omega
    simp only [siftupGo]
    exact ⟨hlen, hpos, this, hQ⟩
  | succ n ih =>
    intro heap pos hlen hpos hfuel hQ hE
    simp only [siftupGo]
    split
    · rename_i hchild
      have hposlen : pos < heap.length := hlen ▸ hpos
      split
      · rename_i hcond
        -- the right child is promoted into the hole
        refine ih (heap.set pos (Epull heap (2 * pos + 2))) (2 * pos + 2)
          (by rw [List.length_set]; exact hlen) hcond.1 (by omega) ?_ ?_
        · intro j hj hjlen hne
          rcases eq_or_ne j pos with rfl | hjp
          · rw [Epull_set_self _ _ _ hposlen,
              Epull_set_ne _ _ _ _ (Nat.ne_of_gt (parent_lt hj))]
            exact hE hj _ (by omega) hcond.1 (parent_childR j)
          · rw [Epull_set_ne _ _ _ _ (Ne.symm hjp)]
            rcases eq_or_ne ((j - 1) / 2) pos with hp | hp
            · rcases child_cases hp hj with rfl | rfl
              · -- the sibling (left child): promoted right child is below it
                rw [hp, Epull_set_self _ _ _ hposlen]
                exact le_of_not_lt hcond.2
              · -- the promoted child itself: reflexivity
                rw [hp, Epull_set_self _ _ _ hposlen]
            · rw [Epull_set_ne _ _ _ _ (fun hc => hp hc.symm)]
              exact hQ j hj hjlen hp
        · intro hc2 j hj hjlen hp
          have hpar : (2 * pos + 2 - 1) / 2 = pos := parent_childR pos
          have hjne : j ≠ pos := by omega
          rw [hpar, Epull_set_self _ _ _ hposlen,
            Epull_set_ne _ _ _ _ (Ne.symm hjne)]
          have := hQ j hj hjlen (by omega)
          rwa [hp] at this
      · rename_i hcond
        -- the left child is promoted into the hole
        refine ih (heap.set pos (Epull heap (2 * pos + 1))) (2 * pos + 1)
          (by rw [List.length_set]; exact hlen) hchild (by omega) ?_ ?_
        · intro j hj hjlen hne
          rcases eq_or_ne j pos with rfl | hjp
          · rw [Epull_set_self _ _ _ hposlen,
              Epull_set_ne _ _ _ _ (Nat.ne_of_gt (parent_lt hj))]
            exact hE hj _ (by omega) hchild (parent_childL j)
          · rw [Epull_set_ne _ _ _ _ (Ne.symm hjp)]
            rcases eq_or_ne ((j - 1) / 2) pos with hp | hp
            · rcases child_cases hp hj with rfl | rfl
              · -- the promoted child itself: reflexivity
                rw [hp, Epull_set_self _ _ _ hposlen]
              · -- the sibling (right child): in range, so the branch test
                -- failed because the left child is strictly smaller
                rw [hp, Epull_set_self _ _ _ hposlen]
                have hlt : (Epull heap (2 * pos + 1)).t < (Epull heap (2 * pos + 2)).t := by
                  by_contra hcon
                  exact hcond ⟨hjlen, hcon⟩
                exact le_of_lt hlt
            · rw [Epull_set_ne _ _ _ _ (fun hc => hp hc.symm)]
              exact hQ j hj hjlen hp
        · intro hc2 j hj hjlen hp
          have hpar : (2 * pos + 1 - 1) / 2 = pos := parent_childL pos
          have hjne : j ≠ pos := by omega
          rw [hpar, Epull_set_self _ _ _ hposlen,
            Epull_set_ne _ _ _ _ (Ne.symm hjne)]
          have := hQ j hj hjlen (by omega)
          rwa [hp] at this
    · rename_i hchild
      exact ⟨hlen, hpos, hchild, hQ⟩

/-- `heappop` preserves the heap invariant. -/
theorem heapInv_heappop (heap : List Event) (hinv : heapInv heap) :
    heapInv (heappop heap).2 := by
  simp only [heappop]
  split
  · intro j hj hjlen
    simp at hjlen
  · rename_i hemp
    have hne : heap.take (heap.length - 1) ≠ [] := fun hc => by
      rw [hc] at hemp; simp at hemp
    have hlen2 : 2 ≤ heap.length := by
      rcases heap with _ | ⟨a, _ | ⟨b, t⟩⟩
      · simp at hne
      · simp at hne
      · simp
    have hrestlen : (heap.take (heap.length - 1)).length = heap.length - 1 := by
      rw [List.length_take]
      omega
    have hsetlen : ((heap.take (heap.length - 1)).set 0 (Epull heap (heap.length - 1))).length
        = heap.length - 1 := by
      rw [List.length_set]
      exact hrestlen
    rw [hsetlen]
    have hspec := siftupGo_spec (heap.length - 1) (heap.length - 1)
      ((heap.take (heap.length - 1)).set 0 (Epull heap (heap.length - 1))) 0
      hsetlen (by omega) (by omega) ?_ (fun h => absurd h (by omega))
    · obtain ⟨hrl, hrp, hrexit, hrQ⟩ := hspec
      refine siftdownGo_inv _ _ _ _ (le_refl _) (by rw [hrl]; exact hrp) ?_ ?_ ?_
      · intro j hj hjlen hne
        rw [hrl] at hjlen
        refine hrQ j hj hjlen ?_
        intro hc
        rcases child_cases hc hj with rfl | rfl
        · omega
        · omega
      · intro j hj hjlen hp
        rw [hrl] at hjlen
        rcases child_cases hp hj with rfl | rfl
        · omega
        · omega
      · intro hpp j hj hjlen hp
        rw [hrl] at hjlen
        rcases child_cases hp hj with rfl | rfl
        · omega
        · omega
    · intro j hj hjlen hne
      have hj2 : j < heap.length := by omega
      have hp2 : (j - 1) / 2 < heap.length - 1 := lt_of_le_of_lt (by omega) hjlen
      have e1 : Epull ((heap.take (heap.length - 1)).set 0 (Epull heap (heap.length - 1))) j
          = Epull heap j := by
        rw [Epull_set_ne _ _ _ _ (by omega), Epull, Epull, getD_take _ _ _ _ hjlen]
      have e2 : Epull ((heap.take (heap.length - 1)).set 0 (Epull heap (heap.length - 1)))
          ((j - 1) / 2) = Epull heap ((j - 1) / 2) := by
        rw [Epull_set_ne _ _ _ _ (by omega), Epull, Epull, getD_take _ _ _ _ hp2]
      rw [e1, e2]
      exact hinv j hj hj2

/-- The element returned by `heappop` is the root of the heap. -/
theorem heappop_fst (heap : List Event) (h : heap ≠ []) :
    (heappop heap).1 = Epull heap 0 := by
  simp only [heappop]
  split
  · rename_i hemp
    have h1 : heap.length = 1 := by
      have htake := List.isEmpty_iff.mp hemp
      have hl := congrArg List.length htake
      rw [List.length_take] at hl
      simp only [List.length_nil] at hl
      have hpos : 0 < heap.length := List.length_pos.mpr h
      omega
    show Epull heap (heap.length - 1) = Epull heap 0
    rw [h1]
  · rename_i hemp
    have hne : heap.take (heap.length - 1) ≠ [] := fun hc => by
      rw [hc] at hemp; simp at hemp
    have hlen2 : 2 ≤ heap.length := by
      rcases heap with _ | ⟨a, _ | ⟨b, t⟩⟩
      · simp at hne
      · simp at hne
      · simp
    show Epull (heap.take (heap.length - 1)) 0 = Epull heap 0
    rw [Epull, Epull, getD_take _ _ _ _ (by omega)]

/-! ### The simulation state and event loop

`SimState` collects the fields of the `QueueSim` object that the `sim` loop
reads and writes: the pre-generated arrival/service times, the statistics
arrays (`departure_times`, `t`, `states`, `balk`, `balkEventMask`, all
allocated with `np.zeros` at length `N` or `2N`), and the loop state
(`idx_next_arrival`, the two priority queues and `event_no`).  Boolean numpy
arrays are modelled as `List Bool`, float arrays as `List ℚ`.
-/

structure SimState where
  nservers : ℕ
  capacity : ℕ
  arrival_times : List ℚ
  service_times : List ℚ
  departure_times : List ℚ
  t : List ℚ
  states : List ℚ
  balk : List Bool
  balkEventMask : List Bool
  idx_next_arrival : ℕ
  service_pq : List Event
  line_pq : List Event
  event_no : ℕ
deriving DecidableEq

def SimState.narrivals (s : SimState) : ℕ := s.arrival_times.length

/-- The state at the top of `sim` after the statistics arrays are zeroed. -/
def initState (nservers capacity : ℕ) (arrival_times service_times : List ℚ) : SimState :=
  { nservers := nservers
    capacity := capacity
    arrival_times := arrival_times
    service_times := service_times
    departure_times := List.replicate arrival_times.length 0
    t := List.replicate (2 * arrival_times.length) 0
    states := List.replicate (2 * arrival_times.length) 0
    balk := List.replicate arrival_times.length false
    balkEventMask := List.replicate (2 * arrival_times.length) false
    idx_next_arrival := 0
    service_pq := []
    line_pq := []
    event_no := 0 }

/-- The event chosen by one iteration of the `while` loop: an `Arrival`
object built from the next pre-generated arrival, or the `Departure` popped
from the service queue. -/
inductive Choice where
  | arrival (ev : Event)
  | departure (ev : Event)
deriving DecidableEq

/-- The event-selection `if`-chain at the top of the loop body: when both an
unprocessed arrival and an in-service customer exist, the arrival is taken
exactly when its time is `≤` the root of the service queue; with only one
source, that source is used; with neither, the loop `break`s (`none`). -/
def selectEvent (s : SimState) : Option Choice :=
  if s.idx_next_arrival < s.narrivals ∧ s.service_pq ≠ [] then
    if s.arrival_times.getD s.idx_next_arrival 0 ≤ (Epull s.service_pq 0).t then
      some (.arrival ⟨s.arrival_times.getD s.idx_next_arrival 0, s.idx_next_arrival⟩)
    else some (.departure (heappop s.service_pq).1)
  else if s.idx_next_arrival < s.narrivals then
    some (.arrival ⟨s.arrival_times.getD s.idx_next_arrival 0, s.idx_next_arrival⟩)
  else if s.service_pq ≠ [] then
    some (.departure (heappop s.service_pq).1)
  else none

/-- The balk branch of `Arrival.act`: flag the customer, record its departure
at the arrival time, advance the arrival index, and write two balk records
(time, state `capacity`, mask set) into consecutive log slots. -/
def balkStep (s : SimState) (ev : Event) : SimState :=
  { s with
    balk := s.balk.set s.idx_next_arrival true
    departure_times := s.departure_times.set s.idx_next_arrival ev.t
    idx_next_arrival := s.idx_next_arrival + 1
    balkEventMask := (s.balkEventMask.set s.event_no true).set (s.event_no + 1) true
    t := (s.t.set s.event_no ev.t).set (s.event_no + 1) ev.t
    states := (s.states.set s.event_no (s.capacity : ℚ)).set (s.event_no + 1) (s.capacity : ℚ)
    event_no := s.event_no + 2 }

/-- `Arrival.act`: balk when the line already holds at least `capacity`
customers (returning `true` makes the loop `continue`), otherwise push the
arrival onto the line and advance the arrival index. -/
def arrivalAct (s : SimState) (ev : Event) : SimState × Bool :=
  if s.capacity ≤ s.line_pq.length then (balkStep s ev, true)
  else ({ s with
            line_pq := heappush s.line_pq ev
            idx_next_arrival := s.idx_next_arrival + 1 }, false)

/-- The move-into-service step: when a server slot is open and the line is
non-empty, pop the line, schedule the departure at the event time plus the
customer's pre-generated service time, and record that departure time. -/
def admitStep (s : SimState) (evt : ℚ) : SimState :=
  if 0 < s.nservers - s.service_pq.length ∧ s.line_pq ≠ [] then
    { s with
      line_pq := (heappop s.line_pq).2
      service_pq := heappush s.service_pq
        ⟨evt + s.service_times.getD (heappop s.line_pq).1.customer_idx 0,
         (heappop s.line_pq).1.customer_idx⟩
      departure_times := s.departure_times.set (heappop s.line_pq).1.customer_idx
        (evt + s.service_times.getD (heappop s.line_pq).1.customer_idx 0) }
  else s

/-- The log write at the bottom of the loop body: record the event time and
the occupancy (customers in service plus customers in line) and advance the
event counter. -/
def logStep (s : SimState) (evt : ℚ) : SimState :=
  { s with
    t := s.t.set s.event_no evt
    states := s.states.set s.event_no ((s.service_pq.length + s.line_pq.length : ℕ) : ℚ)
    event_no := s.event_no + 1 }

/-- One iteration of the `while` loop of `QueueSim.sim`; `none` when the loop
exits (guard `event_no < 2 * narrivals` fails, or no event remains). -/
def simStep (s : SimState) : Option SimState :=
  if s.event_no < 2 * s.narrivals then
    match selectEvent s with
    | none => none
    | some (.arrival ev) =>
      if (arrivalAct s ev).2 then some (arrivalAct s ev).1
      else some (logStep (admitStep (arrivalAct s ev).1 ev.t) ev.t)
    | some (.departure ev) =>
      some (logStep (admitStep { s with service_pq := (heappop s.service_pq).2 } ev.t) ev.t)
  else none

/-- Iterate `simStep` at most `n` times (stopping when the loop exits).  With
`n = 2 * narrivals + 1` this runs the loop to completion, since every
iteration advances `event_no` (see `simStep_stops`). -/
def runN : ℕ → SimState → SimState
  | 0, s => s
  | n + 1, s =>
    match simStep s with
    | none => s
    | some s' => runN n s'

/-- The complete `QueueSim.sim` event loop from pre-generated traces. -/
def simRun (nservers capacity : ℕ) (arrival_times service_times : List ℚ) : SimState :=
  runN (2 * arrival_times.length + 1) (initState nservers capacity arrival_times service_times)

/-! ### Trace generation (`QueueSim.pregen`) and statistics (`QueueSim.write_stats`)

Random draws are modelled by passing the stream of drawn values explicitly:
`gaps` is the sequence of `np.random.exponential(1/arrival_rate)` draws.
`np.hstack` applied to an empty Python list raises `ValueError` (it needs at
least one array to concatenate); that exception is modelled by `none`.
-/

/-- The arrival loop of `pregen`: accumulate gaps into a clock `t`, keeping
each `t` below `t_lim` and stopping at the first `t ≥ t_lim`. -/
def genArrivalTimes (t_lim : ℚ) : ℚ → List ℚ → List ℚ
  | _, [] => []
  | t, g :: gs => if t + g < t_lim then (t + g) :: genArrivalTimes t_lim (t + g) gs else []

/-- `np.hstack` on a list of scalars: raises (`none`) when the list is empty,
otherwise the 1-d array of the values. -/
def npHstack (l : List ℚ) : Option (List ℚ) :=
  if l = [] then none else some l

/-- `pregen`'s computation of `self.arrival_times`. -/
def pregenArrivals (t_lim : ℚ) (gaps : List ℚ) : Option (List ℚ) :=
  npHstack (genArrivalTimes t_lim 0 gaps)

/-- numpy boolean-mask indexing `xs[np.logical_not(mask)]`: keep the entries
whose mask bit is `false`. -/
def maskKeepNot {α : Type} : List Bool → List α → List α
  | b :: bs, x :: xs => if b then maskKeepNot bs xs else x :: maskKeepNot bs xs
  | _, _ => []

/-- `np.diff`: successive differences. -/
def npDiff (xs : List ℚ) : List ℚ := (xs.zip xs.tail).map fun p => p.2 - p.1

/-- `np.sum(interval_lengths[customer_states[:-1] == i])`: the intervals are
paired with the state recorded at the earlier endpoint (`zip` drops the final
state, as slicing with `[:-1]` does), filtered on state `i`, and summed. -/
def cumStateSum (times sts : List ℚ) (i : ℕ) : ℚ :=
  (((npDiff times).zip sts).filter (fun p => p.2 = (i : ℚ))).map Prod.fst |>.sum

/-- Entry `i` of the stationary-distribution array: the time spent at
occupancy `i` (plus, for `i = 0`, the initial idle time up to the first
retained event) divided by the last retained event time. -/
def stationaryEntry (times sts : List ℚ) (i : ℕ) : ℚ :=
  (cumStateSum times sts i + if i = 0 then times.headD 0 else 0) / times.getLastD 0

/-- The stationary-distribution array computed by `write_stats` from the
final simulation state: balk-flagged log entries are removed first. -/
def stationaryDist (s : SimState) (max_record : ℕ) : List ℚ :=
  (List.range max_record).map fun i =>
    stationaryEntry (maskKeepNot s.balkEventMask s.t) (maskKeepNot s.balkEventMask s.states) i

/-- `np.mean`.  `ℚ` has no NaN: on the empty list this model returns `0`
(division by zero), whereas numpy returns NaN with a warning; `write_stats`
only reaches this computation with a non-empty list. -/
def npMean (l : List ℚ) : ℚ := l.sum / l.length

/-- The square of `np.std` (population convention, `ddof = 0`): the mean of
the squared deviations.  `np.std` is the square root of this value; `ℚ` has
no square root, so the radicand is what the development tracks. -/
def npStdSq (l : List ℚ) : ℚ := ((l.map fun x => (x - npMean l) ^ 2).sum) / l.length

/-- `wait = (self.departure_times - self.arrival_times)[np.logical_not(self.balk)]`. -/
def waitList (s : SimState) : List ℚ :=
  maskKeepNot s.balk ((s.departure_times.zip s.arrival_times).map fun p => p.1 - p.2)

/-- The numbers `write_stats` prints. -/
structure StatsReport where
  stationary : List ℚ
  mean_wait : ℚ
  sd_sq_wait : ℚ
  balked : ℕ
  total : ℕ
deriving DecidableEq

/-- `QueueSim.write_stats`.  `none` models a raised `IndexError`: the line
`cum_state[0] += customer_times[0]` raises when no log entry survives the
balk filter (`customer_times` is empty) or when `max_record = 0`
(`cum_state` is empty); both accesses happen before any later statistic. -/
def write_stats (s : SimState) (max_record : ℕ) : Option StatsReport :=
  if maskKeepNot s.balkEventMask s.t = [] then none
  else if max_record = 0 then none
  else some
    { stationary := stationaryDist s max_record
      mean_wait := npMean (waitList s)
      sd_sq_wait := npStdSq (waitList s)
      balked := s.balk.count true
      total := s.narrivals }

/-- The whole program on one configuration: `pregen` (from the streams of
exponential draws), the event loop, and `write_stats`. -/
def pipeline (nservers capacity : ℕ) (t_lim : ℚ) (max_record : ℕ)
    (gaps svc : List ℚ) : Option StatsReport :=
  match pregenArrivals t_lim gaps with
  | none => none
  | some arr => write_stats (simRun nservers capacity arr (svc.take arr.length)) max_record

/-! ### Auxiliary list lemmas for the invariant proofs -/

theorem set_oob {α : Type} (l : List α) (k : ℕ) (v : α) (h : l.length ≤ k) :
    l.set k v = l := by
  induction l generalizing k with
  | nil => simp
  | cons a t ih =>
    cases k with
    | zero => simp at h
    | succ n => simp only [List.set]; rw [ih n (by simpa using h)]

theorem getD_set {α : Type} (l : List α) (k i : ℕ) (v d : α) :
    (l.set k v).getD i d = if k = i ∧ k < l.length then v else l.getD i d := by
  split
  · rename_i hc
    rw [← hc.1]
    exact getD_set_self l k v d hc.2
  · rename_i hc
    rcases Decidable.em (k = i) with rfl | hne
    · have hk : l.length ≤ k := by
        rcases Nat.lt_or_ge k l.length with h | h
        · exact absurd ⟨rfl, h⟩ hc
        · exact h
      rw [set_oob l k v hk]
    · exact getD_set_ne l k i v d hne

theorem mem_getD_exists {α : Type} (l : List α) (x d : α) (hx : x ∈ l) :
    ∃ i, i < l.length ∧ l.getD i d = x := by
  rcases List.mem_iff_get.mp hx with ⟨i, hi⟩
  exact ⟨i.1, i.isLt, by rw [getD_eq_get l i.1 d i.isLt]; exact hi⟩

theorem pairwise_getD {α : Type} (R : α → α → Prop) (l : List α) (h : l.Pairwise R)
    (i j : ℕ) (d : α) (hij : i < j) (hj : j < l.length) : R (l.getD i d) (l.getD j d) := by
  have hi : i < l.length := lt_trans hij hj
  rw [getD_eq_get l i d hi, getD_eq_get l j d hj]
  exact List.pairwise_iff_get.mp h ⟨i, hi⟩ ⟨j, hj⟩ hij

theorem headD_eq_getD {α : Type} (l : List α) (d : α) : l.headD d = l.getD 0 d := by
  cases l <;> rfl

theorem getLastD_eq_getD {α : Type} (l : List α) (d : α) (h : l ≠ []) :
    l.getLastD d = l.getD (l.length - 1) d := by
  induction l generalizing d with
  | nil => exact absurd rfl h
  | cons a t ih =>
    cases t with
    | nil => rfl
    | cons b t2 =>
      rw [List.getLastD_cons, ih a (by simp)]
      have hidx : (a :: b :: t2).length - 1 = ((b :: t2).length - 1) + 1 := by simp
      rw [hidx, List.getD_cons_succ]
      have hin : (b :: t2).length - 1 < (b :: t2).length := by simp
      rw [getD_eq_get _ _ a hin, getD_eq_get _ _ d hin]

/-- Extending a `≤`-sorted prefix of length `n` by writing a dominating value
at slot `n`. -/
theorem sorted_prefix_set (t : List ℚ) (n : ℕ) (v : ℚ) (hn : n < t.length)
    (hs : ∀ i j, i ≤ j → j < n → t.getD i 0 ≤ t.getD j 0)
    (hv : ∀ i, i < n → t.getD i 0 ≤ v) :
    ∀ i j, i ≤ j → j < n + 1 → (t.set n v).getD i 0 ≤ (t.set n v).getD j 0 := by
  intro i j hij hj
  rcases Nat.lt_or_ge j n with hjn | hjn
  · rw [getD_set, getD_set, if_neg (by omega), if_neg (by omega)]
    exact hs i j hij hjn
  · have hjeq : j = n := by omega
    rw [getD_set, getD_set,
      if_pos (show n = j ∧ n < t.length from ⟨hjeq.symm, hn⟩)]
    rcases Nat.lt_or_ge i n with hin | hin
    · rw [if_neg (show ¬ (n = i ∧ n < t.length) from fun hc => by omega)]
      exact hv i hin
    · rw [if_pos (show n = i ∧ n < t.length from ⟨by omega, hn⟩)]

/-- Positivity of a prefix is kept when writing a positive value at slot `n`. -/
theorem pos_prefix_set (t : List ℚ) (n : ℕ) (v : ℚ) (hn : n < t.length)
    (hp : ∀ i, i < n → 0 < t.getD i 0) (hv : 0 < v) :
    ∀ i, i < n + 1 → 0 < (t.set n v).getD i 0 := by
  intro i hi
  rw [getD_set]
  split
  · exact hv
  · rename_i hc
    have hlt : i < n := by
      rcases Nat.lt_or_ge i n with h | h
      · exact h
      · exact absurd ⟨by omega, hn⟩ hc
    exact hp i hlt

theorem nonneg_set (t : List ℚ) (n : ℕ) (v : ℚ)
    (hp : ∀ i, 0 ≤ t.getD i 0) (hv : 0 ≤ v) :
    ∀ i, 0 ≤ (t.set n v).getD i 0 := by
  intro i
  rw [getD_set]
  split
  · exact hv
  · exact hp i

theorem heappop_fst_mem (l : List Event) (h : l ≠ []) : (heappop l).1 ∈ l := by
  rw [heappop_fst l h]
  exact getD_mem _ _ _ (List.length_pos.mpr h)

/-! ### The state invariant of the event loop -/

/-- The time of the most recently logged event (`0` before the first). -/
def lastT (s : SimState) : ℚ :=
  if s.event_no = 0 then 0 else s.t.getD (s.event_no - 1) 0

/-- Everything the loop of `QueueSim.sim` preserves, for a run whose
pre-generated arrival times are strictly increasing and positive and whose
service times are non-negative (as `pregen`'s exponential draws are). -/
structure Good (s : SimState) : Prop where
  len_dep : s.departure_times.length = s.narrivals
  len_t : s.t.length = 2 * s.narrivals
  len_states : s.states.length = 2 * s.narrivals
  len_balk : s.balk.length = s.narrivals
  len_mask : s.balkEventMask.length = 2 * s.narrivals
  len_svc : s.service_times.length = s.narrivals
  idx_le : s.idx_next_arrival ≤ s.narrivals
  count_eq : s.event_no + s.line_pq.length + s.service_pq.length = 2 * s.idx_next_arrival
  line_le : s.line_pq.length ≤ s.capacity
  svc_le : s.service_pq.length ≤ s.nservers
  heap_inv : heapInv s.service_pq
  line_idx : ∀ x ∈ s.line_pq, x.customer_idx < s.narrivals
  states_nonneg : ∀ i, 0 ≤ s.states.getD i 0
  line_emp : s.service_pq = [] → s.line_pq = [] ∨ s.nservers = 0
  arr_pos : ∀ x ∈ s.arrival_times, 0 < x
  arr_sorted : s.arrival_times.Pairwise (· < ·)
  svc_nonneg : ∀ x ∈ s.service_times, 0 ≤ x
  t_sorted : ∀ i j, i ≤ j → j < s.event_no → s.t.getD i 0 ≤ s.t.getD j 0
  t_pos : ∀ i, i < s.event_no → 0 < s.t.getD i 0
  svc_after : ∀ x ∈ s.service_pq, lastT s ≤ x.t
  svc_t_pos : ∀ x ∈ s.service_pq, 0 < x.t
  arr_after : s.idx_next_arrival < s.narrivals →
    lastT s ≤ s.arrival_times.getD s.idx_next_arrival 0

theorem good_init (nservers capacity : ℕ) (arr svc : List ℚ)
    (hlen : svc.length = arr.length)
    (hpos : ∀ x ∈ arr, 0 < x)
    (hsorted : arr.Pairwise (· < ·))
    (hsvc : ∀ x ∈ svc, 0 ≤ x) :
    Good (initState nservers capacity arr svc) := by
  refine ⟨?_, ?_, ?_, ?_, ?_, ?_, ?_, ?_, ?_, ?_, ?_, ?_, ?_, ?_, ?_, ?_, ?_, ?_, ?_, ?_, ?_, ?_⟩
  · simp [initState, SimState.narrivals]
  · simp [initState, SimState.narrivals]
  · simp [initState, SimState.narrivals]
  · simp [initState, SimState.narrivals]
  · simp [initState, SimState.narrivals]
  · simpa [initState, SimState.narrivals] using hlen
  · simp [initState]
  · simp [initState]
  · simp [initState]
  · simp [initState]
  · intro j hj hjlen
    simp [initState] at hjlen
  · simp [initState]
  · intro i
    simp only [initState]
    rcases Nat.lt_or_ge i (2 * arr.length) with h | h
    · rw [getD_eq_get _ _ _ (by simpa using h)]
      simp
    · rw [List.getD_eq_default _ _ (by simpa using h)]
  · simp [initState]
  · simpa [initState] using hpos
  · simpa [initState] using hsorted
  · simpa [initState] using hsvc
  · intro i j hij hj
    simp [initState] at hj
  · intro i hi
    simp [initState] at hi
  · simp [initState]
  · simp [initState]
  · intro h
    simp only [initState, lastT, if_pos rfl]
    have : arr.getD 0 0 ∈ arr := getD_mem arr 0 0 (by simpa [initState, SimState.narrivals] using h)
    exact le_of_lt (hpos _ this)

/-! ### Inversion of the event selection and of one loop iteration -/

theorem selectEvent_arrival_inv (s : SimState) (ev : Event)
    (h : selectEvent s = some (.arrival ev)) :
    ev = ⟨s.arrival_times.getD s.idx_next_arrival 0, s.idx_next_arrival⟩ ∧
    s.idx_next_arrival < s.narrivals ∧
    (s.service_pq ≠ [] →
      s.arrival_times.getD s.idx_next_arrival 0 ≤ (Epull s.service_pq 0).t) := by
  simp only [selectEvent] at h
  split at h
  · rename_i hc
    split at h
    · rename_i hle
      simp only [Option.some.injEq, Choice.arrival.injEq] at h
      exact ⟨h.symm, hc.1, fun _ => hle⟩
    · simp at h
  · rename_i hc
    split at h
    · rename_i hidx
      simp only [Option.some.injEq, Choice.arrival.injEq] at h
      refine ⟨h.symm, hidx, fun hsvc => ?_⟩
      exact absurd ⟨hidx, hsvc⟩ hc
    · split at h
      · simp at h
      · exact absurd h (by simp)

theorem selectEvent_departure_inv (s : SimState) (ev : Event)
    (h : selectEvent s = some (.departure ev)) :
    ev = (heappop s.service_pq).1 ∧ s.service_pq ≠ [] ∧
    (s.idx_next_arrival < s.narrivals →
      (Epull s.service_pq 0).t < s.arrival_times.getD s.idx_next_arrival 0) := by
  simp only [selectEvent] at h
  split at h
  · rename_i hc
    split at h
    · simp at h
    · rename_i hgt
      simp only [Option.some.injEq, Choice.departure.injEq] at h
      exact ⟨h.symm, hc.2, fun _ => lt_of_not_le hgt⟩
  · rename_i hc
    split at h
    · simp at h
    · rename_i hidx
      split at h
      · rename_i hsvc
        simp only [Option.some.injEq, Choice.departure.injEq] at h
        exact ⟨h.symm, hsvc, fun hi => absurd hi hidx⟩
      · exact absurd h (by simp)

theorem selectEvent_none_iff (s : SimState) :
    selectEvent s = none ↔ ¬ s.idx_next_arrival < s.narrivals ∧ s.service_pq = [] := by
  constructor
  · intro h
    simp only [selectEvent] at h
    split at h
    · split at h <;> simp at h
    · rename_i hc
      split at h
      · simp at h
      · rename_i hidx
        split at h
        · simp at h
        · rename_i hsvc
          exact ⟨hidx, not_not.mp hsvc⟩
  · intro ⟨h1, h2⟩
    simp only [selectEvent]
    rw [if_neg (fun hc => h1 hc.1), if_neg h1, if_neg (fun hc => hc h2)]

/-- Anatomy of a successful loop iteration: the loop guard held, and the
iteration was a balked arrival, an enqueued arrival, or a departure. -/
theorem simStep_cases (s s' : SimState) (h : simStep s = some s') :
    s.event_no < 2 * s.narrivals ∧
    ((∃ ev, selectEvent s = some (.arrival ev) ∧ s.capacity ≤ s.line_pq.length ∧
        s' = balkStep s ev) ∨
     (∃ ev, selectEvent s = some (.arrival ev) ∧ s.line_pq.length < s.capacity ∧
        s' = logStep (admitStep
          { s with line_pq := heappush s.line_pq ev
                   idx_next_arrival := s.idx_next_arrival + 1 } ev.t) ev.t) ∨
     (∃ ev, selectEvent s = some (.departure ev) ∧
        s' = logStep (admitStep
          { s with service_pq := (heappop s.service_pq).2 } ev.t) ev.t)) := by
  simp only [simStep] at h
  split at h
  · rename_i hguard
    refine ⟨hguard, ?_⟩
    split at h
    · simp at h
    · rename_i ev heq
      by_cases hbalk : s.capacity ≤ s.line_pq.length
      · left
        rw [if_pos (by simp [arrivalAct, if_pos hbalk])] at h
        refine ⟨ev, heq, hbalk, ?_⟩
        simp only [arrivalAct, if_pos hbalk] at h
        simpa using h.symm
      · right; left
        rw [if_neg (by simp [arrivalAct, if_neg hbalk])] at h
        refine ⟨ev, heq, by omega, ?_⟩
        simp only [arrivalAct, if_neg hbalk] at h
        simpa using h.symm
    · rename_i ev heq
      right; right
      exact ⟨ev, heq, by simpa using h.symm⟩
  · simp at h

theorem simStep_none_iff (s : SimState) :
    simStep s = none ↔
      ¬ s.event_no < 2 * s.narrivals ∨ selectEvent s = none := by
  simp only [simStep]
  split
  · rename_i hguard
    constructor
    · intro h
      split at h
      · rename_i hsel
        exact Or.inr hsel
      · rename_i ev hsel
        split at h <;> simp at h
      · rename_i ev hsel
        simp at h
    · intro h
      rcases h with h | h
      · exact absurd hguard h
      · rw [h]
  · rename_i hguard
    constructor
    · intro h
      exact Or.inl hguard
    · intro h
      rfl

theorem Epull_mem (l : List Event) (h : l ≠ []) : Epull l 0 ∈ l :=
  getD_mem _ _ _ (List.length_pos.mpr h)

theorem le_lastT (s : SimState)
    (hsorted : ∀ i j, i ≤ j → j < s.event_no → s.t.getD i 0 ≤ s.t.getD j 0) :
    ∀ i, i < s.event_no → s.t.getD i 0 ≤ lastT s := by
  intro i hi
  unfold lastT
  rw [if_neg (by omega)]
  exact hsorted i (s.event_no - 1) (by omega) (by omega)

/-- `Good` facts for the final log write of a loop iteration, from `Good`-style
facts about the state after the event acted and admission ran. -/
theorem good_log (s2 : SimState) (v : ℚ)
    (len_dep : s2.departure_times.length = s2.narrivals)
    (len_t : s2.t.length = 2 * s2.narrivals)
    (len_states : s2.states.length = 2 * s2.narrivals)
    (len_balk : s2.balk.length = s2.narrivals)
    (len_mask : s2.balkEventMask.length = 2 * s2.narrivals)
    (len_svc : s2.service_times.length = s2.narrivals)
    (idx_le : s2.idx_next_arrival ≤ s2.narrivals)
    (count_eq : s2.event_no + 1 + s2.line_pq.length + s2.service_pq.length =
      2 * s2.idx_next_arrival)
    (line_le : s2.line_pq.length ≤ s2.capacity)
    (svc_le : s2.service_pq.length ≤ s2.nservers)
    (heap_inv : heapInv s2.service_pq)
    (line_idx : ∀ x ∈ s2.line_pq, x.customer_idx < s2.narrivals)
    (states_nonneg : ∀ i, 0 ≤ s2.states.getD i 0)
    (line_emp : s2.service_pq = [] → s2.line_pq = [] ∨ s2.nservers = 0)
    (arr_pos : ∀ x ∈ s2.arrival_times, 0 < x)
    (arr_sorted : s2.arrival_times.Pairwise (· < ·))
    (svc_nonneg : ∀ x ∈ s2.service_times, 0 ≤ x)
    (t_sorted : ∀ i j, i ≤ j → j < s2.event_no → s2.t.getD i 0 ≤ s2.t.getD j 0)
    (t_pos : ∀ i, i < s2.event_no → 0 < s2.t.getD i 0)
    (svc_ge : ∀ x ∈ s2.service_pq, v ≤ x.t)
    (svc_t_pos : ∀ x ∈ s2.service_pq, 0 < x.t)
    (hvpos : 0 < v)
    (hvle : ∀ i, i < s2.event_no → s2.t.getD i 0 ≤ v)
    (harr : s2.idx_next_arrival < s2.narrivals →
      v ≤ s2.arrival_times.getD s2.idx_next_arrival 0)
    (hguard : s2.event_no < 2 * s2.narrivals) :
    Good (logStep s2 v) := by
  have hn : s2.event_no < s2.t.length := by omega
  have hlastT : lastT (logStep s2 v) = v := by
    simp only [logStep, lastT]
    rw [if_neg (by omega)]
    simp only [Nat.add_sub_cancel]
    exact getD_set_self _ _ _ _ hn
  refine ⟨?_, ?_, ?_, ?_, ?_, ?_, ?_, ?_, ?_, ?_, ?_, ?_, ?_, ?_, ?_, ?_, ?_, ?_, ?_, ?_, ?_, ?_⟩
  · exact len_dep
  · simpa [logStep, SimState.narrivals] using len_t
  · simpa [logStep, SimState.narrivals] using len_states
  · exact len_balk
  · exact len_mask
  · exact len_svc
  · exact idx_le
  · simpa [logStep, SimState.narrivals] using count_eq
  · exact line_le
  · exact svc_le
  · exact heap_inv
  · exact line_idx
  · intro i
    simp only [logStep]
    exact nonneg_set _ _ _ states_nonneg (by positivity) i
  · exact line_emp
  · exact arr_pos
  · exact arr_sorted
  · exact svc_nonneg
  · intro i j hij hj
    simp only [logStep] at hj ⊢
    exact sorted_prefix_set s2.t s2.event_no v hn t_sorted hvle i j hij hj
  · intro i hi
    simp only [logStep] at hi ⊢
    exact pos_prefix_set s2.t s2.event_no v hn t_pos hvpos i hi
  · intro x hx
    rw [hlastT]
    exact svc_ge x hx
  · exact svc_t_pos
  · intro h
    rw [hlastT]
    exact harr h

/-- `Good` is preserved by the balk branch of `Arrival.act`. -/
theorem good_balk (s : SimState) (ev : Event) (g : Good s)
    (hidx : s.idx_next_arrival < s.narrivals)
    (hev : ev = ⟨s.arrival_times.getD s.idx_next_arrival 0, s.idx_next_arrival⟩)
    (hsvc_ge : ∀ x ∈ s.service_pq, ev.t ≤ x.t) :
    Good (balkStep s ev) := by
  have hN : s.idx_next_arrival + 1 ≤ s.narrivals := hidx
  have hbound : s.event_no + 1 < 2 * s.narrivals := by
    have := g.count_eq
    omega
  have hn0 : s.event_no < s.t.length := by
    rw [g.len_t]; omega
  have hn1 : s.event_no + 1 < (s.t.set s.event_no ev.t).length := by
    rw [List.length_set, g.len_t]; omega
  have hapos : 0 < ev.t := by
    rw [hev]
    exact g.arr_pos _ (getD_mem _ _ _ hidx)
  have hlast_le : ∀ i, i < s.event_no → s.t.getD i 0 ≤ ev.t := by
    intro i hi
    refine le_trans (le_lastT s g.t_sorted i hi) ?_
    rw [hev]
    exact g.arr_after hidx
  have hlastT : lastT (balkStep s ev) = ev.t := by
    simp only [balkStep, lastT]
    rw [if_neg (by omega)]
    exact getD_set_self _ _ _ _ hn1
  refine ⟨?_, ?_, ?_, ?_, ?_, ?_, ?_, ?_, ?_, ?_, ?_, ?_, ?_, ?_, ?_, ?_, ?_, ?_, ?_, ?_, ?_, ?_⟩
  · simpa [balkStep, SimState.narrivals] using g.len_dep
  · simpa [balkStep, SimState.narrivals] using g.len_t
  · simpa [balkStep, SimState.narrivals] using g.len_states
  · simpa [balkStep, SimState.narrivals] using g.len_balk
  · simpa [balkStep, SimState.narrivals] using g.len_mask
  · exact g.len_svc
  · simpa [balkStep, SimState.narrivals] using hN
  · have := g.count_eq
    simp only [balkStep, SimState.narrivals]
    omega
  · exact g.line_le
  · exact g.svc_le
  · exact g.heap_inv
  · exact g.line_idx
  · intro i
    simp only [balkStep]
    refine nonneg_set _ _ _ ?_ (by positivity) i
    exact nonneg_set _ _ _ g.states_nonneg (by positivity)
  · exact g.line_emp
  · exact g.arr_pos
  · exact g.arr_sorted
  · exact g.svc_nonneg
  · intro i j hij hj
    simp only [balkStep] at hj ⊢
    have h1 := sorted_prefix_set s.t s.event_no ev.t hn0 g.t_sorted hlast_le
    refine sorted_prefix_set _ (s.event_no + 1) ev.t hn1 h1 ?_ i j hij (by omega)
    intro i hi
    rw [getD_set]
    split
    · exact le_refl _
    · exact hlast_le i (by omega)
  · intro i hi
    simp only [balkStep] at hi ⊢
    have h1 := pos_prefix_set s.t s.event_no ev.t hn0 g.t_pos hapos
    exact pos_prefix_set _ (s.event_no + 1) ev.t hn1 h1 hapos i (by omega)
  · intro x hx
    rw [hlastT]
    exact hsvc_ge x hx
  · exact g.svc_t_pos
  · intro h
    have h2 : s.idx_next_arrival + 1 < s.narrivals := h
    rw [hlastT, hev]
    exact le_of_lt (pairwise_getD (· < ·) s.arrival_times g.arr_sorted
      s.idx_next_arrival (s.idx_next_arrival + 1) 0 (by omega) h2)

/-- `Good` facts for the admission-then-log tail of a loop iteration, from
`Good`-style facts about the state right after the event acted. -/
theorem good_finish (s1 : SimState) (v : ℚ)
    (len_dep : s1.departure_times.length = s1.narrivals)
    (len_t : s1.t.length = 2 * s1.narrivals)
    (len_states : s1.states.length = 2 * s1.narrivals)
    (len_balk : s1.balk.length = s1.narrivals)
    (len_mask : s1.balkEventMask.length = 2 * s1.narrivals)
    (len_svc : s1.service_times.length = s1.narrivals)
    (idx_le : s1.idx_next_arrival ≤ s1.narrivals)
    (count_eq : s1.event_no + 1 + s1.line_pq.length + s1.service_pq.length =
      2 * s1.idx_next_arrival)
    (line_le : s1.line_pq.length ≤ s1.capacity)
    (svc_le : s1.service_pq.length ≤ s1.nservers)
    (heap_inv : heapInv s1.service_pq)
    (line_idx : ∀ x ∈ s1.line_pq, x.customer_idx < s1.narrivals)
    (states_nonneg : ∀ i, 0 ≤ s1.states.getD i 0)
    (arr_pos : ∀ x ∈ s1.arrival_times, 0 < x)
    (arr_sorted : s1.arrival_times.Pairwise (· < ·))
    (svc_nonneg : ∀ x ∈ s1.service_times, 0 ≤ x)
    (t_sorted : ∀ i j, i ≤ j → j < s1.event_no → s1.t.getD i 0 ≤ s1.t.getD j 0)
    (t_pos : ∀ i, i < s1.event_no → 0 < s1.t.getD i 0)
    (svc_ge : ∀ x ∈ s1.service_pq, v ≤ x.t)
    (svc_t_pos : ∀ x ∈ s1.service_pq, 0 < x.t)
    (hvpos : 0 < v)
    (hvle : ∀ i, i < s1.event_no → s1.t.getD i 0 ≤ v)
    (harr : s1.idx_next_arrival < s1.narrivals →
      v ≤ s1.arrival_times.getD s1.idx_next_arrival 0)
    (hguard : s1.event_no < 2 * s1.narrivals) :
    Good (logStep (admitStep s1 v) v) := by
  by_cases hadm : 0 < s1.nservers - s1.service_pq.length ∧ s1.line_pq ≠ []
  · have hpopidx : (heappop s1.line_pq).1.customer_idx < s1.narrivals :=
      line_idx _ (heappop_fst_mem _ hadm.2)
    have hsvcj : 0 ≤ s1.service_times.getD (heappop s1.line_pq).1.customer_idx 0 :=
      svc_nonneg _ (getD_mem _ _ _ (by rw [len_svc]; exact hpopidx))
    have hlq : 0 < s1.line_pq.length := List.length_pos.mpr hadm.2
    simp only [admitStep, if_pos hadm]
    refine good_log _ v ?_ ?_ ?_ ?_ ?_ ?_ ?_ ?_ ?_ ?_ ?_ ?_ ?_ ?_ ?_ ?_ ?_ ?_ ?_ ?_ ?_ ?_ ?_ ?_ ?_
    · simpa [SimState.narrivals] using len_dep
    · exact len_t
    · exact len_states
    · exact len_balk
    · exact len_mask
    · exact len_svc
    · exact idx_le
    · show s1.event_no + 1 + (heappop s1.line_pq).2.length + (heappush s1.service_pq _).length
        = 2 * s1.idx_next_arrival
      rw [length_heappop _ hadm.2, length_heappush]
      omega
    · show (heappop s1.line_pq).2.length ≤ s1.capacity
      rw [length_heappop _ hadm.2]
      omega
    · show (heappush s1.service_pq _).length ≤ s1.nservers
      rw [length_heappush]
      omega
    · exact heapInv_heappush _ _ heap_inv
    · intro x hx
      exact line_idx x (mem_heappop _ _ hx)
    · exact states_nonneg
    · intro hsvc
      exact absurd (congrArg List.length hsvc) (by rw [length_heappush]; simp)
    · exact arr_pos
    · exact arr_sorted
    · exact svc_nonneg
    · exact t_sorted
    · exact t_pos
    · intro x hx
      rcases mem_heappush _ _ _ hx with h | h
      · exact svc_ge x h
      · rw [h]
        simpa using hsvcj
    · intro x hx
      rcases mem_heappush _ _ _ hx with h | h
      · exact svc_t_pos x h
      · rw [h]
        have : (0:ℚ) < v + s1.service_times.getD (heappop s1.line_pq).1.customer_idx 0 := by
          linarith
        simpa using this
    · exact hvpos
    · exact hvle
    · exact harr
    · exact hguard
  · simp only [admitStep, if_neg hadm]
    refine good_log _ v len_dep len_t len_states len_balk len_mask len_svc idx_le
      count_eq line_le svc_le heap_inv line_idx states_nonneg ?_ arr_pos arr_sorted
      svc_nonneg t_sorted t_pos svc_ge svc_t_pos hvpos hvle harr hguard
    intro hsvc
    rcases Decidable.em (s1.line_pq = []) with h | h
    · exact Or.inl h
    · right
      have hs0 : s1.service_pq.length = 0 := by rw [hsvc]; rfl
      have : ¬ 0 < s1.nservers - s1.service_pq.length := fun hc => hadm ⟨hc, h⟩
      omega

/-- One iteration of the event loop preserves the invariant. -/
theorem good_step (s s' : SimState) (g : Good s) (h : simStep s = some s') : Good s' := by
  obtain ⟨hguard, hcase⟩ := simStep_cases s s' h
  rcases hcase with ⟨ev, hsel, hbalk, rfl⟩ | ⟨ev, hsel, hlt, rfl⟩ | ⟨ev, hsel, rfl⟩
  · -- balked arrival
    obtain ⟨hev, hidx, hle⟩ := selectEvent_arrival_inv s ev hsel
    refine good_balk s ev g hidx hev ?_
    intro x hx
    have hne : s.service_pq ≠ [] := fun hc => by rw [hc] at hx; simp at hx
    refine le_trans ?_ (heapInv_root_le_mem _ g.heap_inv x hx)
    rw [hev]
    exact hle hne
  · -- admitted arrival
    obtain ⟨hev, hidx, hle⟩ := selectEvent_arrival_inv s ev hsel
    have hapos : 0 < ev.t := by
      rw [hev]
      exact g.arr_pos _ (getD_mem _ _ _ hidx)
    refine good_finish _ ev.t ?_ ?_ ?_ ?_ ?_ ?_ ?_ ?_ ?_ ?_ ?_ ?_ ?_ ?_ ?_ ?_ ?_ ?_ ?_ ?_ ?_ ?_ ?_ ?_
    · exact g.len_dep
    · exact g.len_t
    · exact g.len_states
    · exact g.len_balk
    · exact g.len_mask
    · exact g.len_svc
    · exact hidx
    · show s.event_no + 1 + (heappush s.line_pq ev).length + s.service_pq.length
        = 2 * (s.idx_next_arrival + 1)
      rw [length_heappush]
      have := g.count_eq
      omega
    · show (heappush s.line_pq ev).length ≤ s.capacity
      rw [length_heappush]
      omega
    · exact g.svc_le
    · exact g.heap_inv
    · intro x hx
      rcases mem_heappush _ _ _ hx with h2 | h2
      · exact g.line_idx x h2
      · rw [h2, hev]
        exact hidx
    · exact g.states_nonneg
    · exact g.arr_pos
    · exact g.arr_sorted
    · exact g.svc_nonneg
    · exact g.t_sorted
    · exact g.t_pos
    · intro x hx
      have hne : s.service_pq ≠ [] := fun hc => by rw [hc] at hx; simp at hx
      refine le_trans ?_ (heapInv_root_le_mem _ g.heap_inv x hx)
      rw [hev]
      exact hle hne
    · exact g.svc_t_pos
    · exact hapos
    · intro i hi
      refine le_trans (le_lastT s g.t_sorted i hi) ?_
      rw [hev]
      exact g.arr_after hidx
    · intro h2
      have h3 : s.idx_next_arrival + 1 < s.narrivals := h2
      rw [hev]
      exact le_of_lt (pairwise_getD (· < ·) s.arrival_times g.arr_sorted
        s.idx_next_arrival (s.idx_next_arrival + 1) 0 (by omega) h3)
    · exact hguard
  · -- departure
    obtain ⟨hev, hne, hlt2⟩ := selectEvent_departure_inv s ev hsel
    have hroot : ev = Epull s.service_pq 0 := by rw [hev]; exact heappop_fst _ hne
    have hevmem : ev ∈ s.service_pq := by rw [hroot]; exact Epull_mem _ hne
    have hslen : 0 < s.service_pq.length := List.length_pos.mpr hne
    refine good_finish _ ev.t ?_ ?_ ?_ ?_ ?_ ?_ ?_ ?_ ?_ ?_ ?_ ?_ ?_ ?_ ?_ ?_ ?_ ?_ ?_ ?_ ?_ ?_ ?_ ?_
    · exact g.len_dep
    · exact g.len_t
    · exact g.len_states
    · exact g.len_balk
    · exact g.len_mask
    · exact g.len_svc
    · exact g.idx_le
    · show s.event_no + 1 + s.line_pq.length + (heappop s.service_pq).2.length
        = 2 * s.idx_next_arrival
      rw [length_heappop _ hne]
      have := g.count_eq
      omega
    · exact g.line_le
    · show (heappop s.service_pq).2.length ≤ s.nservers
      rw [length_heappop _ hne]
      have := g.svc_le
      omega
    · exact heapInv_heappop _ g.heap_inv
    · exact g.line_idx
    · exact g.states_nonneg
    · exact g.arr_pos
    · exact g.arr_sorted
    · exact g.svc_nonneg
    · exact g.t_sorted
    · exact g.t_pos
    · intro x hx
      rw [hroot]
      exact heapInv_root_le_mem _ g.heap_inv x (mem_heappop _ _ hx)
    · intro x hx
      exact g.svc_t_pos x (mem_heappop _ _ hx)
    · exact g.svc_t_pos ev hevmem
    · intro i hi
      exact le_trans (le_lastT s g.t_sorted i hi) (g.svc_after ev hevmem)
    · intro h2
      exact le_of_lt (hroot ▸ hlt2 h2)
    · exact hguard

/-- Reachability in the event loop: zero or more successful iterations. -/
def Reachable (s0 s : SimState) : Prop :=
  Relation.ReflTransGen (fun a b => simStep a = some b) s0 s

theorem good_reachable (s0 s : SimState) (g : Good s0) (h : Reachable s0 s) : Good s := by
  induction h with
  | refl => exact g
  | tail h1 h2 ih => exact good_step _ _ ih h2

theorem reachable_runN (s : SimState) (n : ℕ) : Reachable s (runN n s) := by
  induction n generalizing s with
  | zero => exact Relation.ReflTransGen.refl
  | succ n ih =>
    simp only [runN]
    split
    · exact Relation.ReflTransGen.refl
    · rename_i s' hstep
      exact Relation.ReflTransGen.head hstep (ih s')

theorem admitStep_arrival_times (s : SimState) (v : ℚ) :
    (admitStep s v).arrival_times = s.arrival_times := by
  unfold admitStep; split <;> rfl

theorem admitStep_event_no (s : SimState) (v : ℚ) :
    (admitStep s v).event_no = s.event_no := by
  unfold admitStep; split <;> rfl

theorem simStep_increases (s s' : SimState) (h : simStep s = some s') :
    s.event_no < s'.event_no ∧ s'.narrivals = s.narrivals ∧
    s'.arrival_times = s.arrival_times ∧ s'.service_times = s.service_times ∧
    s'.nservers = s.nservers ∧ s'.capacity = s.capacity := by
  obtain ⟨hguard, hcase⟩ := simStep_cases s s' h
  rcases hcase with ⟨ev, _, _, rfl⟩ | ⟨ev, _, _, rfl⟩ | ⟨ev, _, rfl⟩
  · exact ⟨by simp [balkStep], rfl, rfl, rfl, rfl, rfl⟩
  · refine ⟨?_, ?_, ?_, ?_, ?_, ?_⟩ <;>
      simp [logStep, SimState.narrivals, admitStep_arrival_times, admitStep_event_no,
        admitStep, apply_ite]
  · refine ⟨?_, ?_, ?_, ?_, ?_, ?_⟩ <;>
      simp [logStep, SimState.narrivals, admitStep_arrival_times, admitStep_event_no,
        admitStep, apply_ite]

theorem runN_stops (n : ℕ) :
    ∀ s, 2 * s.narrivals - s.event_no < n → simStep (runN n s) = none := by
  induction n with
  | zero => intro s h; omega
  | succ n ih =>
    intro s h
    simp only [runN]
    split
    · assumption
    · rename_i s' hstep
      obtain ⟨hinc, hN, _⟩ := simStep_increases s s' hstep
      obtain ⟨hguard, _⟩ := simStep_cases s s' hstep
      exact ih s' (by omega)

theorem simRun_stops (ns cap : ℕ) (arr svc : List ℚ) :
    simStep (simRun ns cap arr svc) = none := by
  apply runN_stops
  simp [initState, SimState.narrivals]

theorem reachable_simRun (ns cap : ℕ) (arr svc : List ℚ) :
    Reachable (initState ns cap arr svc) (simRun ns cap arr svc) :=
  reachable_runN _ _

/-- When the loop of `sim` has ended and at least one server exists, the log
is exactly full: all `2 N` slots were written. -/
theorem final_eventno (s : SimState) (g : Good s) (hns : 1 ≤ s.nservers)
    (h : simStep s = none) : s.event_no = 2 * s.narrivals := by
  have hle : s.event_no ≤ 2 * s.narrivals := by
    have := g.count_eq
    have := g.idx_le
    omega
  rcases (simStep_none_iff s).mp h with h2 | h2
  · omega
  · obtain ⟨hidx, hsvc⟩ := (selectEvent_none_iff s).mp h2
    have hline : s.line_pq = [] := by
      rcases g.line_emp hsvc with h3 | h3
      · exact h3
      · omega
    have hc := g.count_eq
    have hi := g.idx_le
    rw [hsvc, hline] at hc
    simp at hc
    omega

/-! ### Properties of the statistics reducer -/

theorem maskKeepNot_sublist {α : Type} :
    ∀ (m : List Bool) (xs : List α), List.Sublist (maskKeepNot m xs) xs := by
  intro m
  induction m with
  | nil => intro xs; cases xs <;> simp [maskKeepNot]
  | cons b bs ih =>
    intro xs
    cases xs with
    | nil => simp [maskKeepNot]
    | cons x t =>
      simp only [maskKeepNot]
      split
      · exact List.Sublist.cons x (ih t)
      · exact List.Sublist.cons₂ x (ih t)

theorem mem_maskKeepNot {α : Type} (m : List Bool) (xs : List α) (x : α)
    (h : x ∈ maskKeepNot m xs) : x ∈ xs :=
  (maskKeepNot_sublist m xs).subset h

theorem npDiff_mem_exists (l : List ℚ) (x : ℚ) (hx : x ∈ npDiff l) :
    ∃ k, k + 1 < l.length ∧ x = l.getD (k + 1) 0 - l.getD k 0 := by
  induction l with
  | nil => simp [npDiff] at hx
  | cons a t ih =>
    cases t with
    | nil => simp [npDiff] at hx
    | cons b t2 =>
      simp only [npDiff, List.zip_cons_cons, List.map_cons, List.tail] at hx
      rcases List.mem_cons.mp hx with h | h
      · exact ⟨0, by simp, by simpa [List.getD] using h⟩
      · obtain ⟨k, hk, hval⟩ := ih (by simpa [npDiff] using h)
        exact ⟨k + 1, by simpa using hk, by simpa [List.getD] using hval⟩

theorem npDiff_sum (l : List ℚ) (h : l ≠ []) :
    (npDiff l).sum = l.getLastD 0 - l.headD 0 := by
  induction l with
  | nil => exact absurd rfl h
  | cons a t ih =>
    cases t with
    | nil => simp [npDiff]
    | cons b t2 =>
      have hsum : (npDiff (a :: b :: t2)).sum = (b - a) + (npDiff (b :: t2)).sum := by
        simp [npDiff]
      have hstep : (a :: b :: t2).getLastD (0:ℚ) = (b :: t2).getLastD 0 := by
        rw [getLastD_eq_getD _ _ (by simp), getLastD_eq_getD _ _ (by simp)]
        have hidx : (a :: b :: t2).length - 1 = ((b :: t2).length - 1) + 1 := by simp
        rw [hidx, List.getD_cons_succ]
      rw [hsum, ih (by simp), hstep]
      simp [List.headD]

theorem map_fst_zip_sublist {α β : Type} :
    ∀ (l1 : List α) (l2 : List β), List.Sublist ((l1.zip l2).map Prod.fst) l1 := by
  intro l1
  induction l1 with
  | nil => intro l2; simp
  | cons a t ih =>
    intro l2
    cases l2 with
    | nil => simp
    | cons b t2 =>
      simp only [List.zip_cons_cons, List.map_cons]
      exact List.Sublist.cons₂ a (ih t2)

theorem sublist_sum_le (l1 l2 : List ℚ) (h : List.Sublist l1 l2)
    (hn : ∀ x ∈ l2, 0 ≤ x) : l1.sum ≤ l2.sum := by
  induction h with
  | slnil => exact le_refl _
  | cons a hs ih =>
    rename_i la lb
    simp only [List.sum_cons]
    have h1 : la.sum ≤ lb.sum := ih (fun x hx => hn x (List.mem_cons_of_mem _ hx))
    have h2 : 0 ≤ a := hn a (List.mem_cons_self _ _)
    linarith
  | cons₂ a hs ih =>
    rename_i la lb
    simp only [List.sum_cons]
    have h1 : la.sum ≤ lb.sum := ih (fun x hx => hn x (List.mem_cons_of_mem _ hx))
    linarith

theorem pairwise_le_of_getD (l : List ℚ)
    (h : ∀ i j, i ≤ j → j < l.length → l.getD i 0 ≤ l.getD j 0) :
    l.Pairwise (· ≤ ·) := by
  refine List.pairwise_iff_get.mpr ?_
  intro i j hij
  rw [← getD_eq_get l i.1 0 i.isLt, ← getD_eq_get l j.1 0 j.isLt]
  exact h i.1 j.1 (le_of_lt hij) j.isLt

theorem cumStateSum_nonneg (times sts : List ℚ) (i : ℕ)
    (hd : ∀ x ∈ npDiff times, 0 ≤ x) : 0 ≤ cumStateSum times sts i := by
  refine List.sum_nonneg ?_
  intro x hx
  simp only [cumStateSum, List.mem_map] at hx
  obtain ⟨p, hp, rfl⟩ := hx
  have hz := List.mem_filter.mp hp
  exact hd p.1 (List.of_mem_zip hz.1).1

theorem cumStateSum_le (times sts : List ℚ) (i : ℕ)
    (hd : ∀ x ∈ npDiff times, 0 ≤ x) : cumStateSum times sts i ≤ (npDiff times).sum := by
  refine sublist_sum_le _ _ ?_ hd
  refine List.Sublist.trans (List.Sublist.map Prod.fst (List.filter_sublist _)) ?_
  exact map_fst_zip_sublist _ _

/-- Each entry of the stationary-distribution vector lies in `[0, 1]` as soon
as the retained event-time list is non-empty, sorted and positive. -/
theorem stationaryEntry_unit (times sts : List ℚ) (i : ℕ)
    (hne : times ≠ []) (hsorted : times.Pairwise (· ≤ ·))
    (hpos : ∀ x ∈ times, 0 < x) :
    0 ≤ stationaryEntry times sts i ∧ stationaryEntry times sts i ≤ 1 := by
  have hlen : 0 < times.length := List.length_pos.mpr hne
  have hH : times.headD 0 ∈ times := by
    rw [headD_eq_getD]
    exact getD_mem _ _ _ hlen
  have hL : times.getLastD 0 ∈ times := by
    rw [getLastD_eq_getD _ _ hne]
    exact getD_mem _ _ _ (by omega)
  have hHpos : 0 < times.headD 0 := hpos _ hH
  have hLpos : 0 < times.getLastD 0 := hpos _ hL
  have hHL : times.headD 0 ≤ times.getLastD 0 := by
    rw [headD_eq_getD, getLastD_eq_getD _ _ hne]
    rcases Nat.eq_zero_or_pos (times.length - 1) with h | h
    · rw [h]
    · exact pairwise_getD _ _ hsorted 0 (times.length - 1) 0 h (by omega)
  have hd : ∀ x ∈ npDiff times, 0 ≤ x := by
    intro x hx
    obtain ⟨k, hk, rfl⟩ := npDiff_mem_exists times x hx
    have := pairwise_getD _ _ hsorted k (k + 1) 0 (by omega) hk
    linarith
  have hsum := npDiff_sum times hne
  have h0 := cumStateSum_nonneg times sts i hd
  have h1 := cumStateSum_le times sts i hd
  unfold stationaryEntry
  constructor
  · refine div_nonneg ?_ (le_of_lt hLpos)
    split <;> linarith
  · rw [div_le_one hLpos]
    split <;> linarith

theorem simStep_isSome_of_select (s : SimState) (c : Choice)
    (h : selectEvent s = some c) (hg : s.event_no < 2 * s.narrivals) :
    ∃ s', simStep s = some s' := by
  cases c with
  | arrival ev =>
    by_cases hb : (arrivalAct s ev).2 = true
    · refine ⟨(arrivalAct s ev).1, ?_⟩
      unfold simStep
      rw [if_pos hg, h]
      show (if (arrivalAct s ev).2 = true then some (arrivalAct s ev).1
            else some (logStep (admitStep (arrivalAct s ev).1 ev.t) ev.t)) =
        some (arrivalAct s ev).1
      rw [if_pos hb]
    · refine ⟨logStep (admitStep (arrivalAct s ev).1 ev.t) ev.t, ?_⟩
      unfold simStep
      rw [if_pos hg, h]
      show (if (arrivalAct s ev).2 = true then some (arrivalAct s ev).1
            else some (logStep (admitStep (arrivalAct s ev).1 ev.t) ev.t)) =
        some (logStep (admitStep (arrivalAct s ev).1 ev.t) ev.t)
      rw [if_neg hb]
  | departure ev =>
    refine ⟨logStep (admitStep { s with service_pq := (heappop s.service_pq).2 } ev.t) ev.t, ?_⟩
    unfold simStep
    rw [if_pos hg, h]

/-! ### The capacity-zero run: every arrival balks -/

/-- Invariant of a `capacity = 0` run: no customer is ever enqueued or
served, and the balk flags fill up in arrival order. -/
def ZeroCap (s : SimState) : Prop :=
  s.capacity = 0 ∧ s.service_pq = [] ∧ s.line_pq = [] ∧
  s.idx_next_arrival ≤ s.narrivals ∧
  s.event_no = 2 * s.idx_next_arrival ∧
  s.balk = List.replicate s.idx_next_arrival true ++
    List.replicate (s.narrivals - s.idx_next_arrival) false

theorem set_replicate_step {i r : ℕ} :
    (List.replicate i true ++ List.replicate (r + 1) false).set i true =
      List.replicate (i + 1) true ++ List.replicate r false := by
  induction i with
  | zero => rfl
  | succ n ih =>
    show true :: ((List.replicate n true ++ List.replicate (r + 1) false).set n true) =
      true :: (List.replicate (n + 1) true ++ List.replicate r false)
    rw [ih]

theorem zeroCap_init (ns : ℕ) (arr svc : List ℚ) :
    ZeroCap (initState ns 0 arr svc) := by
  refine ⟨rfl, rfl, rfl, by simp [initState], by simp [initState], ?_⟩
  simp [initState, SimState.narrivals]

theorem zeroCap_step (s s' : SimState) (hz : ZeroCap s) (h : simStep s = some s') :
    ZeroCap s' := by
  obtain ⟨hcap, hsvc, hline, hidx, he, hbalk⟩ := hz
  obtain ⟨hguard, hcase⟩ := simStep_cases s s' h
  rcases hcase with ⟨ev, hsel, hb, rfl⟩ | ⟨ev, hsel, hlt, rfl⟩ | ⟨ev, hsel, rfl⟩
  · obtain ⟨hev, hidxlt, _⟩ := selectEvent_arrival_inv s ev hsel
    refine ⟨hcap, hsvc, hline, hidxlt, ?_, ?_⟩
    · simp only [balkStep, SimState.narrivals]
      omega
    · simp only [balkStep, SimState.narrivals]
      rw [hbalk]
      have hr : s.narrivals - s.idx_next_arrival = (s.narrivals - (s.idx_next_arrival + 1)) + 1 := by
        omega
      rw [hr, set_replicate_step]
      rfl
  · rw [hcap] at hlt
    omega
  · obtain ⟨_, hne, _⟩ := selectEvent_departure_inv s ev hsel
    exact absurd hsvc hne

theorem zeroCap_runN (n : ℕ) : ∀ s, ZeroCap s → ZeroCap (runN n s) := by
  induction n with
  | zero => intro s hz; exact hz
  | succ n ih =>
    intro s hz
    simp only [runN]
    split
    · exact hz
    · rename_i s' hstep
      exact ih s' (zeroCap_step s s' hz hstep)

/-! ### The wait-time statistics as sums over the non-balked customers -/

/-- The indices of the customers whose balk flag is unset. -/
def nonBalkedIdx (s : SimState) : List ℕ :=
  (List.range s.narrivals).filter (fun i => s.balk.getD i false = false)

/-- A customer's total wait: departure time minus arrival time. -/
def custWait (s : SimState) (i : ℕ) : ℚ :=
  s.departure_times.getD i 0 - s.arrival_times.getD i 0

/-- Modelled from the spec: the mean wait over exactly the non-balked
customers. -/
def specMeanWait (s : SimState) : ℚ :=
  ((nonBalkedIdx s).map (custWait s)).sum / (nonBalkedIdx s).length

/-- Modelled from the spec: the population variance of the wait (squared
deviations from the mean, divided by the count of non-balked customers, not
by the count minus one). -/
def specPopVar (s : SimState) : ℚ :=
  ((nonBalkedIdx s).map (fun i => (custWait s i - specMeanWait s) ^ 2)).sum /
    (nonBalkedIdx s).length

theorem maskKeepNot_eq_filter_map {α : Type} (d : α) :
    ∀ (m : List Bool) (xs : List α), m.length = xs.length →
      maskKeepNot m xs =
        ((List.range xs.length).filter (fun i => m.getD i false = false)).map
          (fun i => xs.getD i d) := by
  intro m
  induction m with
  | nil =>
    intro xs hlen
    have : xs = [] := List.length_eq_zero.mp hlen.symm
    subst this
    simp [maskKeepNot]
  | cons b bs ih =>
    intro xs hlen
    cases xs with
    | nil => simp at hlen
    | cons x t =>
      have hlen2 : bs.length = t.length := by simpa using hlen
      have hr : List.range (t.length + 1) = 0 :: (List.range t.length).map Nat.succ :=
        List.range_succ_eq_map t.length
      simp only [maskKeepNot, List.length_cons, hr]
      have hmapfilter :
          ((List.range t.length).map Nat.succ).filter
              (fun i => (b :: bs).getD i false = false) =
            ((List.range t.length).filter (fun i => bs.getD i false = false)).map
              Nat.succ := by
        rw [List.filter_map]
        rfl
      cases b with
      | true =>
        rw [if_pos rfl]
        rw [List.filter_cons_of_neg (by simp [List.getD])]
        rw [hmapfilter, List.map_map, ih t hlen2]
        rfl
      | false =>
        rw [if_neg (by simp)]
        rw [List.filter_cons_of_pos (by simp [List.getD])]
        rw [hmapfilter, List.map_cons, List.map_map, ih t hlen2]
        rfl

theorem zip_map_sub_getD (l1 l2 : List ℚ) :
    ∀ i, i < l1.length → i < l2.length →
      ((l1.zip l2).map (fun p => p.1 - p.2)).getD i 0 = l1.getD i 0 - l2.getD i 0 := by
  induction l1 generalizing l2 with
  | nil => intro i h1; simp at h1
  | cons a t ih =>
    intro i h1 h2
    cases l2 with
    | nil => simp at h2
    | cons b t2 =>
      cases i with
      | zero => simp [List.getD]
      | succ k =>
        simp only [List.zip_cons_cons, List.map_cons, List.getD_cons_succ]
        exact ih t2 k (by simpa using h1) (by simpa using h2)

/-- The masked wait array equals the waits of the non-balked customers, in
index order. -/
theorem waitList_eq (s : SimState)
    (hb : s.balk.length = s.narrivals)
    (hd : s.departure_times.length = s.narrivals) :
    waitList s = (nonBalkedIdx s).map (custWait s) := by
  have hzlen : ((s.departure_times.zip s.arrival_times).map
      (fun p => p.1 - p.2)).length = s.narrivals := by
    simp [List.length_zip, hd, SimState.narrivals]
  unfold waitList nonBalkedIdx
  rw [maskKeepNot_eq_filter_map 0 _ _ (by rw [hzlen, hb]), hzlen]
  refine List.map_congr_left ?_
  intro i hi
  have hilt : i < s.narrivals := by
    have := List.mem_range.mp (List.mem_of_mem_filter hi)
    exact this
  exact zip_map_sub_getD _ _ i (by omega) (by simpa [SimState.narrivals] using hilt)

theorem runN_const (n : ℕ) : ∀ s,
    (runN n s).nservers = s.nservers ∧ (runN n s).capacity = s.capacity ∧
    (runN n s).arrival_times = s.arrival_times ∧
    (runN n s).service_times = s.service_times := by
  induction n with
  | zero => intro s; exact ⟨rfl, rfl, rfl, rfl⟩
  | succ n ih =>
    intro s
    simp only [runN]
    split
    · exact ⟨rfl, rfl, rfl, rfl⟩
    · rename_i s' hstep
      obtain ⟨_, _, ha, hs, hn, hc⟩ := simStep_increases s s' hstep
      obtain ⟨h1, h2, h3, h4⟩ := ih s'
      exact ⟨h1.trans hn, h2.trans hc, h3.trans ha, h4.trans hs⟩

/-! ### The claims -/

/-- Claim C4 (counterexample): with `nservers = 1` and `capacity = 0`, the
claim asserts a customer arriving while the server is free is admitted to
service and that `balked_count` counts only arrivals that found the server
occupied.  In the run with a single arrival at time 1, the arrival is
selected from the initial state, whose service set is empty (the server is
free), yet the customer balks (`balk = [true]`, balked count 1), because the
code balks whenever `len(line_pq) >= capacity = 0`, regardless of server
availability. -/
theorem capacity_zero_balk_free_server_cex :
    (initState 1 0 [1] [1]).service_pq = [] ∧
    selectEvent (initState 1 0 [1] [1]) = some (.arrival ⟨1, 0⟩) ∧
    simStep (initState 1 0 [1] [1]) = some (balkStep (initState 1 0 [1] [1]) ⟨1, 0⟩) ∧
    (simRun 1 0 [1] [1]).balk = [true] ∧
    (simRun 1 0 [1] [1]).balk.count true = 1 := by
  refine ⟨rfl, ?_, ?_, ?_, ?_⟩ <;> exact of_decide_eq_true (by with_unfolding_all rfl)

/-- Claim C4 (amended): with `capacity = 0`, every arriving customer balks —
the line (always empty) already holds `capacity = 0` customers — so the
final balked count equals the total number of arrivals, for any number of
servers and any trace. -/
theorem capacity_zero_all_balk (ns : ℕ) (arr svc : List ℚ) :
    (simRun ns 0 arr svc).balk = List.replicate arr.length true ∧
    (simRun ns 0 arr svc).balk.count true = arr.length := by
  have hrw : simRun ns 0 arr svc = runN (2 * arr.length + 1) (initState ns 0 arr svc) := rfl
  rw [hrw]
  obtain ⟨hcap, hsvc, hline, hidx, he, hbalk⟩ :=
    zeroCap_runN (2 * arr.length + 1) _ (zeroCap_init ns arr svc)
  have hstop : simStep (runN (2 * arr.length + 1) (initState ns 0 arr svc)) = none :=
    simRun_stops ns 0 arr svc
  have hN : (runN (2 * arr.length + 1) (initState ns 0 arr svc)).narrivals = arr.length := by
    show (runN (2 * arr.length + 1) (initState ns 0 arr svc)).arrival_times.length = arr.length
    rw [(runN_const (2 * arr.length + 1) (initState ns 0 arr svc)).2.2.1]
    rfl
  have hidx_eq : (runN (2 * arr.length + 1) (initState ns 0 arr svc)).idx_next_arrival =
      (runN (2 * arr.length + 1) (initState ns 0 arr svc)).narrivals := by
    rcases (simStep_none_iff _).mp hstop with h | h
    · omega
    · obtain ⟨hi, _⟩ := (selectEvent_none_iff _).mp h
      omega
  have hb : (runN (2 * arr.length + 1) (initState ns 0 arr svc)).balk =
      List.replicate arr.length true := by
    rw [hbalk, hidx_eq, hN]
    simp
  exact ⟨hb, by rw [hb]; simp⟩

/-- Claim C5 (code bug): when no arrival falls below `t_lim` (here the first
exponential gap 5 already reaches past `t_lim = 3`), the arrival list is
empty and `pregen` calls `np.hstack` on an empty list, which raises
`ValueError` (modelled as `none`), so the whole pipeline raises instead of
producing an empty log and an "undefined" report. -/
theorem empty_trace_pipeline_raises :
    genArrivalTimes 3 0 [5] = [] ∧ pregenArrivals 3 [5] = none ∧
    pipeline 1 1 3 10 [5] [1] = none := by
  refine ⟨?_, ?_, ?_⟩ <;> exact of_decide_eq_true (by with_unfolding_all rfl)

/-- Claim C6 (code bug): with `capacity = 0` and one arrival, every customer
balks, so there are zero non-balked customers and zero retained log entries;
`write_stats` then raises `IndexError` at `customer_times[0]` (modelled as
`none`) instead of reporting NaN-valued statistics without raising. -/
theorem all_balked_write_stats_raises :
    (simRun 1 0 [1] [1]).balk = [true] ∧
    maskKeepNot (simRun 1 0 [1] [1]).balkEventMask (simRun 1 0 [1] [1]).t = [] ∧
    write_stats (simRun 1 0 [1] [1]) 10 = none := by
  refine ⟨?_, ?_, ?_⟩ <;> exact of_decide_eq_true (by with_unfolding_all rfl)

/-- Claim C9: `t_lim` bounds only the arrivals, not the event log.  With
`t_lim = 10` the generated trace is `[9]` (the next accumulated arrival time
11 is discarded); the customer is admitted at time 9 with service time 5 and
gets departure time `9 + 5 = 14 > t_lim`; that departure is still processed
(both log slots are consumed) and recorded in the log. -/
theorem departures_past_horizon_recorded :
    genArrivalTimes 10 0 [9, 2] = [9] ∧
    (9 : ℚ) < 10 ∧
    (simRun 1 5 [9] [5]).departure_times = [9 + 5] ∧
    (simRun 1 5 [9] [5]).t = [9, 9 + 5] ∧
    ¬ ((9 : ℚ) + 5 ≤ 10) ∧
    (simRun 1 5 [9] [5]).event_no = 2 := by
  refine ⟨?_, ?_, ?_, ?_, ?_, ?_⟩ <;> exact of_decide_eq_true (by with_unfolding_all rfl)

/-- Claim C1: the stationary-distribution estimate (balk-flagged entries
removed, each inter-event interval attributed to the occupancy at the
earlier event, initial idle time added to bucket 0, all buckets divided by
the last retained time — exactly the computation in `stationaryDist`)
has every entry in `[0, 1]`, for any configuration with at least one server
and any pre-generated trace that leaves at least one retained log entry. -/
theorem stationary_entries_unit_interval (ns cap : ℕ) (arr svc : List ℚ) (max_record : ℕ)
    (hns : 1 ≤ ns) (hlen : svc.length = arr.length)
    (hpos : ∀ x ∈ arr, 0 < x) (hsorted : arr.Pairwise (· < ·))
    (hsvcn : ∀ x ∈ svc, 0 ≤ x)
    (hne : maskKeepNot (simRun ns cap arr svc).balkEventMask (simRun ns cap arr svc).t ≠ []) :
    ∀ q ∈ stationaryDist (simRun ns cap arr svc) max_record, 0 ≤ q ∧ q ≤ 1 := by
  have hg : Good (simRun ns cap arr svc) :=
    good_reachable _ _ (good_init ns cap arr svc hlen hpos hsorted hsvcn)
      (reachable_simRun ns cap arr svc)
  have hnsf : 1 ≤ (simRun ns cap arr svc).nservers := by
    have h1 : (simRun ns cap arr svc).nservers = ns :=
      (runN_const (2 * arr.length + 1) (initState ns cap arr svc)).1
    omega
  have he : (simRun ns cap arr svc).event_no = 2 * (simRun ns cap arr svc).narrivals :=
    final_eventno _ hg hnsf (simRun_stops ns cap arr svc)
  have hsorted_t : (simRun ns cap arr svc).t.Pairwise (· ≤ ·) := by
    refine pairwise_le_of_getD _ ?_
    intro i j hij hj
    refine hg.t_sorted i j hij ?_
    rw [he, ← hg.len_t]
    exact hj
  have hpos_t : ∀ x ∈ (simRun ns cap arr svc).t, 0 < x := by
    intro x hx
    obtain ⟨i, hi, rfl⟩ := mem_getD_exists _ x 0 hx
    refine hg.t_pos i ?_
    rw [he, ← hg.len_t]
    exact hi
  have hsub := maskKeepNot_sublist (simRun ns cap arr svc).balkEventMask
    (simRun ns cap arr svc).t
  have hctsorted := hsorted_t.sublist hsub
  have hctpos : ∀ x ∈ maskKeepNot (simRun ns cap arr svc).balkEventMask
      (simRun ns cap arr svc).t, 0 < x := fun x hx => hpos_t x (hsub.subset hx)
  intro q hq
  simp only [stationaryDist, List.mem_map, List.mem_range] at hq
  obtain ⟨i, hi, rfl⟩ := hq
  exact stationaryEntry_unit _ _ i hne hctsorted hctpos

/-- Witness for C1 at a concrete configuration: the entries of the
stationary distribution of the two-customer run are in `[0, 1]`. -/
theorem stationary_entries_unit_interval_witness :
    0 ≤ (stationaryDist (simRun 2 5 [1, 2] [1, 2]) 4).getD 0 0 ∧
    (stationaryDist (simRun 2 5 [1, 2] [1, 2]) 4).getD 0 0 ≤ 1 :=
  stationary_entries_unit_interval 2 5 [1, 2] [1, 2] 4
    (by omega) rfl
    (of_decide_eq_true (by with_unfolding_all rfl))
    (of_decide_eq_true (by with_unfolding_all rfl))
    (of_decide_eq_true (by with_unfolding_all rfl))
    (of_decide_eq_true (by with_unfolding_all rfl))
    _ (of_decide_eq_true (by with_unfolding_all rfl))

/-- Claim C2: at every reachable state of the event loop, when the earliest
unprocessed arrival time is at most every in-service completion time (in
particular on exact ties, and vacuously when no one is in service), the
selected event is that arrival; otherwise — that is, when someone is in
service and, should any arrival remain at all, some completion time is
strictly earlier than the next arrival (when arrivals are exhausted,
`t_next_arrival = +∞`, the condition holds vacuously, covering the drain
phase) — the selected event is a departure achieving the minimum completion
time, and under the loop guard it is actually processed; and when neither
pending arrivals nor in-service customers exist, the loop ends. -/
theorem event_selection_order (ns cap : ℕ) (arr svc : List ℚ) (s : SimState)
    (hlen : svc.length = arr.length)
    (hpos : ∀ x ∈ arr, 0 < x) (hsorted : arr.Pairwise (· < ·))
    (hsvcn : ∀ x ∈ svc, 0 ≤ x)
    (hreach : Reachable (initState ns cap arr svc) s) :
    (s.idx_next_arrival < s.narrivals →
      (∀ x ∈ s.service_pq, s.arrival_times.getD s.idx_next_arrival 0 ≤ x.t) →
      selectEvent s = some (.arrival
        ⟨s.arrival_times.getD s.idx_next_arrival 0, s.idx_next_arrival⟩) ∧
      (s.event_no < 2 * s.narrivals → ∃ s', simStep s = some s')) ∧
    (s.service_pq ≠ [] →
      (s.idx_next_arrival < s.narrivals →
        ∃ x ∈ s.service_pq, x.t < s.arrival_times.getD s.idx_next_arrival 0) →
      ∃ ev, selectEvent s = some (.departure ev) ∧ ev ∈ s.service_pq ∧
        (∀ y ∈ s.service_pq, ev.t ≤ y.t) ∧
        (s.event_no < 2 * s.narrivals → ∃ s', simStep s = some s')) ∧
    (¬ s.idx_next_arrival < s.narrivals → s.service_pq = [] → simStep s = none) := by
  have hg : Good s :=
    good_reachable _ _ (good_init ns cap arr svc hlen hpos hsorted hsvcn) hreach
  refine ⟨?_, ?_, ?_⟩
  · intro hidx hall
    have hself : selectEvent s = some (.arrival
        ⟨s.arrival_times.getD s.idx_next_arrival 0, s.idx_next_arrival⟩) := by
      by_cases hpq : s.service_pq = []
      · simp only [selectEvent]
        rw [if_neg (fun hc => hc.2 hpq), if_pos hidx]
      · simp only [selectEvent]
        rw [if_pos ⟨hidx, hpq⟩, if_pos (hall _ (Epull_mem _ hpq))]
    exact ⟨hself, fun hg2 => simStep_isSome_of_select s _ hself hg2⟩
  · intro hpq hcond
    have hself : selectEvent s = some (.departure (heappop s.service_pq).1) := by
      by_cases hidx : s.idx_next_arrival < s.narrivals
      · obtain ⟨x, hx, hxlt⟩ := hcond hidx
        have hroot_lt : (Epull s.service_pq 0).t <
            s.arrival_times.getD s.idx_next_arrival 0 :=
          lt_of_le_of_lt (heapInv_root_le_mem _ hg.heap_inv x hx) hxlt
        simp only [selectEvent]
        rw [if_pos ⟨hidx, hpq⟩, if_neg (not_le.mpr hroot_lt)]
      · simp only [selectEvent]
        rw [if_neg (fun hc => hidx hc.1), if_neg hidx, if_pos hpq]
    refine ⟨(heappop s.service_pq).1, hself, ?_, ?_, ?_⟩
    · rw [heappop_fst _ hpq]
      exact Epull_mem _ hpq
    · intro y hy
      rw [heappop_fst _ hpq]
      exact heapInv_root_le_mem _ hg.heap_inv y hy
    · intro hg2
      exact simStep_isSome_of_select s _ hself hg2
  · intro hidx hpq
    exact (simStep_none_iff s).mpr (Or.inr ((selectEvent_none_iff s).mpr ⟨hidx, hpq⟩))

/-- Witness for C2 at concrete reachable states: from the initial state of a
one-customer run (no one in service, so the arrival-time condition holds
vacuously) the selected event is the first arrival; and in the drain phase
of the four-server run (arrivals exhausted, customers still in service) a
departure is selected, so the loop does not end. -/
theorem event_selection_order_witness :
    selectEvent (initState 1 5 [1] [2]) = some (.arrival ⟨1, 0⟩) ∧
    selectEvent (runN 5 (initState 4 10 [1, 2, 3, 4] [4, 5, 4, 5])) ≠ none := by
  constructor
  · exact ((event_selection_order 1 5 [1] [2] (initState 1 5 [1] [2]) rfl
      (of_decide_eq_true (by with_unfolding_all rfl))
      (of_decide_eq_true (by with_unfolding_all rfl))
      (of_decide_eq_true (by with_unfolding_all rfl))
      Relation.ReflTransGen.refl).1
      (of_decide_eq_true (by with_unfolding_all rfl))
      (by intro x hx; simp [initState] at hx)).1
  · obtain ⟨ev, hev, hmem, hmin, hstep⟩ :=
      (event_selection_order 4 10 [1, 2, 3, 4] [4, 5, 4, 5]
        (runN 5 (initState 4 10 [1, 2, 3, 4] [4, 5, 4, 5])) rfl
        (of_decide_eq_true (by with_unfolding_all rfl))
        (of_decide_eq_true (by with_unfolding_all rfl))
        (of_decide_eq_true (by with_unfolding_all rfl))
        (reachable_runN _ _)).2.1
        (of_decide_eq_true (by with_unfolding_all rfl))
        (fun hidx => absurd hidx (of_decide_eq_true (by with_unfolding_all rfl)))
    simp [hev]

/-- Claim C3: at any reachable state, when an arrival is selected and the
waiting line already holds exactly `capacity` customers, the iteration takes
the balk branch: the customer's balk flag is set, its departure time is set
to its arrival time, exactly two consecutive log slots are written, both
with the arrival's timestamp, occupancy `capacity` and the balk flag, the
event counter advances by two, and the admission step does not run (both
queues are untouched, and no other log slot changes). -/
theorem balk_branch_effects (ns cap : ℕ) (arr svc : List ℚ) (s : SimState) (ev : Event)
    (hlen : svc.length = arr.length)
    (hpos : ∀ x ∈ arr, 0 < x) (hsorted : arr.Pairwise (· < ·))
    (hsvcn : ∀ x ∈ svc, 0 ≤ x)
    (hreach : Reachable (initState ns cap arr svc) s)
    (hsel : selectEvent s = some (.arrival ev))
    (hfull : s.line_pq.length = s.capacity)
    (hguard : s.event_no < 2 * s.narrivals) :
    simStep s = some (balkStep s ev) ∧
    (balkStep s ev).balk.getD ev.customer_idx false = true ∧
    (balkStep s ev).departure_times.getD ev.customer_idx 0 = ev.t ∧
    (balkStep s ev).t.getD s.event_no 0 = ev.t ∧
    (balkStep s ev).t.getD (s.event_no + 1) 0 = ev.t ∧
    (balkStep s ev).states.getD s.event_no 0 = (s.capacity : ℚ) ∧
    (balkStep s ev).states.getD (s.event_no + 1) 0 = (s.capacity : ℚ) ∧
    (balkStep s ev).balkEventMask.getD s.event_no false = true ∧
    (balkStep s ev).balkEventMask.getD (s.event_no + 1) false = true ∧
    (balkStep s ev).event_no = s.event_no + 2 ∧
    (balkStep s ev).service_pq = s.service_pq ∧
    (balkStep s ev).line_pq = s.line_pq ∧
    (∀ j, j ≠ s.event_no → j ≠ s.event_no + 1 →
      (balkStep s ev).t.getD j 0 = s.t.getD j 0 ∧
      (balkStep s ev).balkEventMask.getD j false = s.balkEventMask.getD j false) := by
  have hg : Good s :=
    good_reachable _ _ (good_init ns cap arr svc hlen hpos hsorted hsvcn) hreach
  obtain ⟨hev, hidx, _⟩ := selectEvent_arrival_inv s ev hsel
  have hble : s.capacity ≤ s.line_pq.length := le_of_eq hfull.symm
  have hbound : s.event_no + 1 < 2 * s.narrivals := by
    have := hg.count_eq
    omega
  have ht0 : s.event_no < s.t.length := by rw [hg.len_t]; omega
  have ht1 : s.event_no + 1 < (s.t.set s.event_no ev.t).length := by
    rw [List.length_set, hg.len_t]; omega
  have hs0 : s.event_no < s.states.length := by rw [hg.len_states]; omega
  have hs1 : s.event_no + 1 < (s.states.set s.event_no (s.capacity : ℚ)).length := by
    rw [List.length_set, hg.len_states]; omega
  have hm0 : s.event_no < s.balkEventMask.length := by rw [hg.len_mask]; omega
  have hm1 : s.event_no + 1 < (s.balkEventMask.set s.event_no true).length := by
    rw [List.length_set, hg.len_mask]; omega
  have hb2 : (arrivalAct s ev).2 = true := by
    simp only [arrivalAct, if_pos hble]
  have hcust : ev.customer_idx = s.idx_next_arrival := by rw [hev]
  refine ⟨?_, ?_, ?_, ?_, ?_, ?_, ?_, ?_, ?_, rfl, rfl, rfl, ?_⟩
  · unfold simStep
    rw [if_pos hguard, hsel]
    show (if (arrivalAct s ev).2 = true then some (arrivalAct s ev).1
          else some (logStep (admitStep (arrivalAct s ev).1 ev.t) ev.t)) =
      some (balkStep s ev)
    rw [if_pos hb2]
    simp only [arrivalAct, if_pos hble]
  · show (s.balk.set s.idx_next_arrival true).getD ev.customer_idx false = true
    rw [hcust]
    exact getD_set_self _ _ _ _ (by rw [hg.len_balk]; exact hidx)
  · show (s.departure_times.set s.idx_next_arrival ev.t).getD ev.customer_idx 0 = ev.t
    rw [hcust]
    exact getD_set_self _ _ _ _ (by rw [hg.len_dep]; exact hidx)
  · show ((s.t.set s.event_no ev.t).set (s.event_no + 1) ev.t).getD s.event_no 0 = ev.t
    rw [getD_set_ne _ _ _ _ _ (by omega)]
    exact getD_set_self _ _ _ _ ht0
  · exact getD_set_self _ _ _ _ ht1
  · show ((s.states.set s.event_no (s.capacity : ℚ)).set (s.event_no + 1)
      (s.capacity : ℚ)).getD s.event_no 0 = (s.capacity : ℚ)
    rw [getD_set_ne _ _ _ _ _ (by omega)]
    exact getD_set_self _ _ _ _ hs0
  · exact getD_set_self _ _ _ _ hs1
  · show ((s.balkEventMask.set s.event_no true).set (s.event_no + 1)
      true).getD s.event_no false = true
    rw [getD_set_ne _ _ _ _ _ (by omega)]
    exact getD_set_self _ _ _ _ hm0
  · exact getD_set_self _ _ _ _ hm1
  · intro j hj0 hj1
    constructor
    · show ((s.t.set s.event_no ev.t).set (s.event_no + 1) ev.t).getD j 0 = s.t.getD j 0
      rw [getD_set_ne _ _ _ _ _ (fun hc => hj1 hc.symm),
        getD_set_ne _ _ _ _ _ (fun hc => hj0 hc.symm)]
    · show ((s.balkEventMask.set s.event_no true).set (s.event_no + 1)
        true).getD j false = s.balkEventMask.getD j false
      rw [getD_set_ne _ _ _ _ _ (fun hc => hj1 hc.symm),
        getD_set_ne _ _ _ _ _ (fun hc => hj0 hc.symm)]

/-- Witness for C3 at a concrete state: the unique arrival of the
one-customer, zero-capacity run is processed as a balk pair. -/
theorem balk_branch_effects_witness :
    simStep (initState 1 0 [1] [1]) =
      some (balkStep (initState 1 0 [1] [1]) ⟨1, 0⟩) ∧
    (balkStep (initState 1 0 [1] [1]) ⟨1, 0⟩).balk.getD 0 false = true := by
  have h := balk_branch_effects 1 0 [1] [1] (initState 1 0 [1] [1]) ⟨1, 0⟩ rfl
    (of_decide_eq_true (by with_unfolding_all rfl))
    (of_decide_eq_true (by with_unfolding_all rfl))
    (of_decide_eq_true (by with_unfolding_all rfl))
    Relation.ReflTransGen.refl
    (of_decide_eq_true (by with_unfolding_all rfl))
    rfl
    (of_decide_eq_true (by with_unfolding_all rfl))
  exact ⟨h.1, h.2.1⟩

/-- Claim C7: at every reachable state the number of log entries written
(`event_no`) is at most `2 N`, one more step keeps it at most `2 N` (so no
write goes past the end of the fixed-size log, even when a balk consumes two
slots), every recorded occupancy value is non-negative, and the loop
terminates: after the bounded run `simRun`, the guard or the event sources
are exhausted. -/
theorem log_bounds_and_termination (ns cap : ℕ) (arr svc : List ℚ) (s : SimState)
    (hlen : svc.length = arr.length)
    (hpos : ∀ x ∈ arr, 0 < x) (hsorted : arr.Pairwise (· < ·))
    (hsvcn : ∀ x ∈ svc, 0 ≤ x)
    (hreach : Reachable (initState ns cap arr svc) s) :
    s.event_no ≤ 2 * s.narrivals ∧
    (∀ s', simStep s = some s' → s'.event_no ≤ 2 * s'.narrivals) ∧
    (∀ i, 0 ≤ s.states.getD i 0) ∧
    simStep (simRun ns cap arr svc) = none := by
  have hg : Good s :=
    good_reachable _ _ (good_init ns cap arr svc hlen hpos hsorted hsvcn) hreach
  refine ⟨?_, ?_, hg.states_nonneg, simRun_stops ns cap arr svc⟩
  · have := hg.count_eq
    have := hg.idx_le
    omega
  · intro s' hstep
    have hg' : Good s' := good_step s s' hg hstep
    have := hg'.count_eq
    have := hg'.idx_le
    omega

/-- Witness for C7 at the initial state of a concrete run. -/
theorem log_bounds_and_termination_witness :
    (initState 1 5 [1] [2]).event_no ≤ 2 * (initState 1 5 [1] [2]).narrivals ∧
    simStep (simRun 1 5 [1] [2]) = none := by
  have h := log_bounds_and_termination 1 5 [1] [2] (initState 1 5 [1] [2]) rfl
    (of_decide_eq_true (by with_unfolding_all rfl))
    (of_decide_eq_true (by with_unfolding_all rfl))
    (of_decide_eq_true (by with_unfolding_all rfl))
    Relation.ReflTransGen.refl
  exact ⟨h.1, h.2.2.2⟩

/-- Claim C8 (amended): at every reachable state, a selected departure event
is an element of the in-service set achieving the minimum scheduled
completion time; the selection is deterministic, but exact ties are resolved
by the heap's internal layout, not necessarily by customer index (see the
counterexample). -/
theorem departure_min_time (ns cap : ℕ) (arr svc : List ℚ) (s : SimState) (ev : Event)
    (hlen : svc.length = arr.length)
    (hpos : ∀ x ∈ arr, 0 < x) (hsorted : arr.Pairwise (· < ·))
    (hsvcn : ∀ x ∈ svc, 0 ≤ x)
    (hreach : Reachable (initState ns cap arr svc) s)
    (hsel : selectEvent s = some (.departure ev)) :
    ev ∈ s.service_pq ∧ ∀ x ∈ s.service_pq, ev.t ≤ x.t := by
  have hg : Good s :=
    good_reachable _ _ (good_init ns cap arr svc hlen hpos hsorted hsvcn) hreach
  obtain ⟨hev, hne, _⟩ := selectEvent_departure_inv s ev hsel
  have hroot : ev = Epull s.service_pq 0 := by rw [hev]; exact heappop_fst _ hne
  constructor
  · rw [hroot]
    exact Epull_mem _ hne
  · intro x hx
    rw [hroot]
    exact heapInv_root_le_mem _ hg.heap_inv x hx

/-- Claim C8 (counterexample to the tie-break rule): after five iterations
of the four-server run with arrivals `[1, 2, 3, 4]` and service times
`[4, 5, 4, 5]`, customers 1 and 2 are both in service with the same
completion time 7, and the selected departure is customer 2, not the
lower-index customer 1: ties are not broken by customer index. -/
theorem departure_tie_not_by_index_cex :
    Reachable (initState 4 10 [1, 2, 3, 4] [4, 5, 4, 5])
      (runN 5 (initState 4 10 [1, 2, 3, 4] [4, 5, 4, 5])) ∧
    selectEvent (runN 5 (initState 4 10 [1, 2, 3, 4] [4, 5, 4, 5])) =
      some (.departure ⟨7, 2⟩) ∧
    Event.mk 7 1 ∈ (runN 5 (initState 4 10 [1, 2, 3, 4] [4, 5, 4, 5])).service_pq := by
  refine ⟨reachable_runN _ _, ?_, ?_⟩ <;>
    exact of_decide_eq_true (by with_unfolding_all rfl)

/-- Witness for the amended C8 at the same concrete state: the selected
departure `⟨7, 2⟩` is in service, and its time bounds the tied entry
`⟨7, 1⟩` from below. -/
theorem departure_min_time_witness :
    Event.mk 7 2 ∈ (runN 5 (initState 4 10 [1, 2, 3, 4] [4, 5, 4, 5])).service_pq ∧
    (7 : ℚ) ≤ 9 := by
  have h := departure_min_time 4 10 [1, 2, 3, 4] [4, 5, 4, 5]
    (runN 5 (initState 4 10 [1, 2, 3, 4] [4, 5, 4, 5])) ⟨7, 2⟩ rfl
    (of_decide_eq_true (by with_unfolding_all rfl))
    (of_decide_eq_true (by with_unfolding_all rfl))
    (of_decide_eq_true (by with_unfolding_all rfl))
    (reachable_runN _ _)
    (of_decide_eq_true (by with_unfolding_all rfl))
  exact ⟨h.1, h.2 ⟨9, 3⟩ (of_decide_eq_true (by with_unfolding_all rfl))⟩

/-- Claim C10: the reported wait-time dispersion is the population standard
deviation over exactly the non-balked customers: the radicand of `np.std`
(the value `npStdSq`, of which the printed figure is the square root) equals
the sum of squared deviations of the non-balked waits from their mean,
divided by the count of non-balked customers — not by the count minus one —
where each wait is the departure time minus the arrival time. -/
theorem sd_is_population_over_nonbalked (s : SimState)
    (hb : s.balk.length = s.narrivals)
    (hd : s.departure_times.length = s.narrivals) :
    npStdSq (waitList s) = specPopVar s ∧ npMean (waitList s) = specMeanWait s := by
  have hw := waitList_eq s hb hd
  have hm : npMean ((nonBalkedIdx s).map (custWait s)) = specMeanWait s := by
    unfold npMean specMeanWait
    rw [List.length_map]
  constructor
  · unfold npStdSq specPopVar
    rw [hw, List.map_map, List.length_map, hm]
    rfl
  · rw [hw, hm]

/-- Witness for C10 at a concrete run with waits `1` and `2`: the value is
the population variance `1/4` (the sample convention would give `1/2`). -/
theorem sd_is_population_over_nonbalked_witness :
    npStdSq (waitList (simRun 2 5 [1, 2] [1, 2])) = specPopVar (simRun 2 5 [1, 2] [1, 2]) ∧
    npStdSq (waitList (simRun 2 5 [1, 2] [1, 2])) = 1 / 4 :=
  ⟨(sd_is_population_over_nonbalked (simRun 2 5 [1, 2] [1, 2])
      (of_decide_eq_true (by with_unfolding_all rfl))
      (of_decide_eq_true (by with_unfolding_all rfl))).1,
   of_decide_eq_true (by with_unfolding_all rfl)⟩

end QueueSim
